import Mathlib

/-!
Verification of the boollion boolean-expression parser and formatter.

The Rust sources (src/parser.rs, src/format.rs, src/error.rs) are embedded
shallowly: strings are lists of characters (`Str`), fallible code returns
`Except`, and the external `boolean_expression` crate's tree type and its
`simplify_via_laws` pass (out of scope for the repository per its spec) are
modelled from the spec where marked.
-/

namespace Boollion

/-- Strings are modelled at the character level, as lists of Lean `Char`
(Unicode scalar values, matching Rust `char`).  Rust `String` indexing is
byte-based; the development only slices at ASCII boundaries, where the two
agree, except where noted at `format_bool_expr`. -/
abbrev Str := List Char

/-- Model of Rust `char::is_alphanumeric` (true on Unicode Alphabetic and
Number characters).  The model is exact on the ASCII range; of the non-ASCII
characters it includes only U+00E9 ('é', a lowercase Unicode Alphabetic
letter), the single non-ASCII character evaluated in this development. -/
def isRustAlphanumeric (c : Char) : Bool :=
  (48 ≤ c.toNat && c.toNat ≤ 57) || (65 ≤ c.toNat && c.toNat ≤ 90) ||
  (97 ≤ c.toNat && c.toNat ≤ 122) || c.toNat = 233

/-- Model of Rust `char::is_whitespace` (Unicode White_Space), exact on the
ASCII range; the development only evaluates it on ASCII characters. -/
def rustIsWhitespace (c : Char) : Bool :=
  c.toNat = 32 || c.toNat = 9 || c.toNat = 10 || c.toNat = 11 ||
  c.toNat = 12 || c.toNat = 13

/-- Model of the per-character action of Rust `str::to_lowercase`: ASCII
uppercase maps to ASCII lowercase, other characters are unchanged.  This is
exact on ASCII and on characters that are already lowercase (such as 'é');
the development only evaluates it on such characters. -/
def rustToLower (c : Char) : Char :=
  if 65 ≤ c.toNat ∧ c.toNat ≤ 90 then Char.ofNat (c.toNat + 32) else c

/-- `str::to_lowercase` on a whole string. -/
def lowercase (s : Str) : Str := s.map rustToLower

/-- `leadsWith pat s` is true when `pat` is a prefix of `s`
(Rust `str::starts_with`). -/
def leadsWith : Str → Str → Bool
  | [], _ => true
  | _ :: _, [] => false
  | p :: ps, c :: cs => p = c && leadsWith ps cs

/-- Helper for `replaceAll`: the `Nat` argument counts characters still to be
skipped (the tail of a pattern occurrence already replaced). -/
def replaceAllAux (pat repl : Str) : Str → Nat → Str
  | [], _ => []
  | _ :: rest, skip + 1 => replaceAllAux pat repl rest skip
  | c :: rest, 0 =>
    if leadsWith pat (c :: rest) && !pat.isEmpty then
      repl ++ replaceAllAux pat repl rest (pat.length - 1)
    else
      c :: replaceAllAux pat repl rest 0

/-- Rust `str::replace pat repl`: replaces all non-overlapping occurrences of
`pat`, scanning left to right, without rescanning replaced text. -/
def replaceAll (pat repl s : Str) : Str := replaceAllAux pat repl s 0

/-- The normalisation chain of `parse_bool_expr_str_with_max_nesting`
(src/parser.rs lines 29-43): lowercase, the seven `replace` calls in source
order, then the leading-`not` rewrite `format!("!{}", &expr_str[3..])`. -/
def normalize (raw : Str) : Str :=
  let e1 := replaceAll [' ', 'a', 'n', 'd'] [' ', '&'] (lowercase raw)
  let e2 := replaceAll [' ', '&', '&'] [' ', '&'] e1
  let e3 := replaceAll [' ', 'o', 'r'] [' ', '|'] e2
  let e4 := replaceAll [' ', '|', '|'] [' ', '|'] e3
  let e5 := replaceAll [' ', 'n', 'o', 't', ' '] [' ', '!'] e4
  let e6 := replaceAll ['('] [' ', '(', ' '] e5
  let e7 := replaceAll [')'] [' ', ')', ' '] e6
  if leadsWith ['n', 'o', 't', ' '] e7 then '!' :: e7.drop 3 else e7

/-- The illegal-bracket scan of src/parser.rs lines 46-53. -/
def hasIllegalBrackets (s : Str) : Bool :=
  s.any fun c =>
    c = '[' || c = ']' || c = Char.ofNat 0x7B || c = Char.ofNat 0x7D ||
    c = '<' || c = '>'

/-- `str::split(' ')`: splits on single spaces, keeping empty pieces. -/
def splitSp : Str → List Str
  | [] => [[]]
  | c :: rest => if c = ' ' then [] :: splitSp rest
                 else (splitSp rest).modifyHead (c :: ·)

/-- `str::trim`: strip leading and trailing whitespace. -/
def trim (s : Str) : Str :=
  ((s.dropWhile rustIsWhitespace).reverse.dropWhile rustIsWhitespace).reverse

/-- Token stream of src/parser.rs line 56: split on spaces, trim each piece. -/
def tokensOf (s : Str) : List Str := (splitSp s).map trim

/-- The expression tree of the external `boolean_expression` crate
(`Expr<String>`), modelled from the spec §3: five variants, strict tree. -/
inductive Expr where
  | Terminal (name : Str)
  | Const (b : Bool)
  | Not (inner : Expr)
  | And (l r : Expr)
  | Or (l r : Expr)
deriving DecidableEq, Repr

/-- The binary-operator tag of src/parser.rs (`enum BoolOp`). -/
inductive BoolOp where
  | And
  | Or
deriving DecidableEq, Repr

/-- `impl Into<String> for BoolOp`. -/
def BoolOp.toName : BoolOp → Str
  | .And => ['a', 'n', 'd']
  | .Or => ['o', 'r']

/-- The error taxonomy of src/error.rs. -/
inductive BoolExprParseError where
  | InvalidBrackets
  | NonAlphanumericToken (token : Str)
  | ConsecutiveTerminals (second : Expr)
  | ConsecutiveOperators (second : Str)
  | TooMuchNesting
  | TrailingOperator (op : Str)
  | EmptyStack
  | UnmatchedBracket (expr : Str)
  | UnknownTerminal (terminal : Str)
deriving DecidableEq, Repr

/-- The single-scope accumulator of src/parser.rs (`struct TokenStack`). -/
structure TokenStack where
  expr : Option Expr
  op : Option BoolOp
deriving DecidableEq, Repr

/-- `TokenStack::default()`: both fields `None`. -/
def TokenStack.default : TokenStack := ⟨none, none⟩

/-- `TokenStack::push` (src/parser.rs lines 156-193), including the defensive
`unwrap_or` identity-element fallback, modelled with `Option.getD`. -/
def TokenStack.push (st : TokenStack) (right : Expr) :
    Except BoolExprParseError TokenStack :=
  if st.expr.isNone then .ok { st with expr := some right }
  else if st.op.isNone then .error (.ConsecutiveTerminals right)
  else
    match st.op with
    | some .And =>
      .ok ⟨some (Expr.And (st.expr.getD (Expr.Const true)) right), none⟩
    | some .Or =>
      .ok ⟨some (Expr.Or (st.expr.getD (Expr.Const false)) right), none⟩
    | none => .error (.ConsecutiveTerminals right)

/-- The not-modifier stripping at the top of `TokenStack::push_str`
(src/parser.rs lines 125-129): `&token[1..]` when the token starts with `!`,
the token itself otherwise. -/
def stripNeg : Str → Str
  | [] => []
  | c :: rest => if c = '!' then rest else c :: rest

/-- The negation flag computed alongside `stripNeg` in `TokenStack::push_str`
(src/parser.rs lines 125-129). -/
def isNegTok : Str → Bool
  | [] => false
  | c :: _ => c = '!'

/-- `TokenStack::push_str` (src/parser.rs lines 119-152): strip one leading
`!`, validate characters, check the allow-list, build the leaf and push it. -/
def TokenStack.push_str (st : TokenStack) (token : Str)
    (allowed : List Str) : Except BoolExprParseError TokenStack :=
  if (stripNeg token).any (fun c => !isRustAlphanumeric c && c ≠ '_') then
    .error (.NonAlphanumericToken (stripNeg token))
  else if stripNeg token ∉ allowed then
    .error (.UnknownTerminal (stripNeg token))
  else
    st.push (if isNegTok token then .Not (.Terminal (stripNeg token))
             else .Terminal (stripNeg token))

/-- `TokenStack::push_op` (src/parser.rs lines 196-205). -/
def TokenStack.push_op (st : TokenStack) (op : BoolOp) :
    Except BoolExprParseError TokenStack :=
  if st.op.isSome then .error (.ConsecutiveOperators op.toName)
  else .ok { st with op := some op }

/-- `TokenStack::finish` (src/parser.rs lines 209-217). -/
def TokenStack.finish (st : TokenStack) : Except BoolExprParseError Expr :=
  match st.op with
  | some op => .error (.TrailingOperator op.toName)
  | none =>
    match st.expr with
    | some e => .ok e
    | none => .error .EmptyStack

/-- The token loop of src/parser.rs lines 62-95.  The Rust `Vec` of stacks is
never empty (it starts with one element and pops are guarded), so it is
modelled as the pair of its last element `top` and the earlier elements
`rest` (innermost first).  `rest.length + 1` is `stacks.len()`. -/
def runTokens (raw : Str) (allowed : List Str) (maxN : Nat) :
    List Str → TokenStack → List TokenStack →
    Except BoolExprParseError (TokenStack × List TokenStack)
  | [], top, rest => .ok (top, rest)
  | tok :: toks, top, rest =>
    if rest.length + 1 > maxN then .error .TooMuchNesting
    else if tok = [] then runTokens raw allowed maxN toks top rest
    else if tok = ['('] then
      runTokens raw allowed maxN toks TokenStack.default (top :: rest)
    else if tok = [')'] then
      match rest with
      | next :: others =>
        match top.finish with
        | .error e => .error e
        | .ok unwound =>
          match next.push unwound with
          | .error e => .error e
          | .ok merged => runTokens raw allowed maxN toks merged others
      | [] => .error (.UnmatchedBracket raw)
    else if tok = ['&'] then
      match top.push_op .And with
      | .error e => .error e
      | .ok top2 => runTokens raw allowed maxN toks top2 rest
    else if tok = ['|'] then
      match top.push_op .Or with
      | .error e => .error e
      | .ok top2 => runTokens raw allowed maxN toks top2 rest
    else if tok = ['t', 'r', 'u', 'e'] then
      match top.push (.Const true) with
      | .error e => .error e
      | .ok top2 => runTokens raw allowed maxN toks top2 rest
    else if tok = ['f', 'a', 'l', 's', 'e'] then
      match top.push (.Const false) with
      | .error e => .error e
      | .ok top2 => runTokens raw allowed maxN toks top2 rest
    else
      match top.push_str tok allowed with
      | .error e => .error e
      | .ok top2 => runTokens raw allowed maxN toks top2 rest

/-- Modelled from the spec: the external boolean-algebra delegate's
algebraic-laws simplification (`Expr::simplify_via_laws` of the
`boolean_expression` crate, explicitly out of scope for this repository).
Spec glossary: "cheap, always-applied rewriting using
identity/annihilator/double-negation rules"; §6: "cheap, idempotent, always
safe to apply".  `mkAnd` is the And smart constructor: annihilator
`false & x = false`, identity `true & x = x`. -/
def mkAnd (a b : Expr) : Expr :=
  if a = .Const false ∨ b = .Const false then .Const false
  else if a = .Const true then b
  else if b = .Const true then a
  else .And a b

/-- Modelled from the spec: the Or smart constructor of the simplifier,
annihilator `true | x = true`, identity `false | x = x`. -/
def mkOr (a b : Expr) : Expr :=
  if a = .Const true ∨ b = .Const true then .Const true
  else if a = .Const false then b
  else if b = .Const false then a
  else .Or a b

/-- Modelled from the spec: the Not smart constructor of the simplifier,
constant folding and double-negation elimination. -/
def mkNot : Expr → Expr
  | .Const b => .Const (!b)
  | .Not x => x
  | .Terminal n => .Not (.Terminal n)
  | .And a b => .Not (.And a b)
  | .Or a b => .Not (.Or a b)

/-- Modelled from the spec: the external delegate's `simplify_via_laws`
(see `mkAnd`), applied bottom-up. -/
def simplify_via_laws : Expr → Expr
  | .And a b => mkAnd (simplify_via_laws a) (simplify_via_laws b)
  | .Or a b => mkOr (simplify_via_laws a) (simplify_via_laws b)
  | .Not a => mkNot (simplify_via_laws a)
  | .Terminal n => .Terminal n
  | .Const b => .Const b

/-- `parse_bool_expr_str_with_max_nesting` (src/parser.rs lines 21-108):
normalise, reject illegal brackets, tokenize, run the stack loop, demand a
single remaining scope, finish it and simplify. -/
def parse_bool_expr_str_with_max_nesting (raw : Str) (allowed : List Str)
    (maxN : Nat) : Except BoolExprParseError Expr :=
  let expr_str := normalize raw
  if hasIllegalBrackets expr_str then .error .InvalidBrackets
  else
    match runTokens raw allowed maxN (tokensOf expr_str)
        TokenStack.default [] with
    | .error e => .error e
    | .ok (top, rest) =>
      if rest.length + 1 > 1 then .error (.UnmatchedBracket raw)
      else
        match top.finish with
        | .error e => .error e
        | .ok e => .ok (simplify_via_laws e)

/-- `parse_bool_expr_str` (src/parser.rs lines 8-13): default bound 100. -/
def parse_bool_expr_str (raw : Str) (allowed : List Str) :
    Except BoolExprParseError Expr :=
  parse_bool_expr_str_with_max_nesting raw allowed 100

/-- The inner recursive renderer `format` of src/format.rs lines 11-20. -/
def fmtInner : Expr → Str
  | .And l r => '(' :: (fmtInner l ++ [' ', '&', ' '] ++ fmtInner r ++ [')'])
  | .Or l r => '(' :: (fmtInner l ++ [' ', '|', ' '] ++ fmtInner r ++ [')'])
  | .Not i => '!' :: fmtInner i
  | .Terminal s => s
  | .Const b => if b then ['t', 'r', 'u', 'e'] else ['f', 'a', 'l', 's', 'e']

/-- The pieces `splitSp` produces on the padded rendering of a parser-shaped
tree (the `Not` arm is only meaningful when it wraps a terminal, the one
shape the parser builds). -/
def fmtToks : Expr → List Str
  | .And l r => [] :: ['('] :: (fmtToks l ++ ['&'] :: (fmtToks r ++ [[')'], []]))
  | .Or l r => [] :: ['('] :: (fmtToks l ++ ['|'] :: (fmtToks r ++ [[')'], []]))
  | .Not i => ['!' :: fmtInner i]
  | .Terminal n => [n]
  | .Const b => [if b then ['t', 'r', 'u', 'e'] else ['f', 'a', 'l', 's', 'e']]

/-- UTF-8 encoded length in bytes of a character (Rust `char::len_utf8`). -/
def utf8Len (c : Char) : Nat :=
  if c.toNat < 128 then 1
  else if c.toNat < 2048 then 2
  else if c.toNat < 65536 then 3
  else 4

/-- UTF-8 encoded length in bytes of a string (Rust `str::len`). -/
def byteLen (s : Str) : Nat := (s.map utf8Len).sum

/-- `format_bool_expr` (src/format.rs lines 4-27): simplify, render, and strip
the outer bracket pair when the rendering starts with `(`.  The Rust strip is
the byte slice `&formatted[1..formatted.len() - 1]`, over the UTF-8 byte
length.  In the branch taken the first character is the one-byte `(`, so the
start index 1 is always a character boundary; the slice panics when the byte
length is below 2 (for the lone `(` the range `1..0` starts past its end) or
when the end index `len - 1` is not a character boundary, which with a
one-byte first character happens exactly when the final character is
multi-byte.  `none` models the panics; otherwise the slice drops exactly the
first and last characters. -/
def format_bool_expr (e : Expr) : Option Str :=
  let f := fmtInner (simplify_via_laws e)
  if f.head? = some '(' then
    if byteLen f < 2 then none
    else if utf8Len (f.getLastD ' ') ≠ 1 then none
    else some f.tail.dropLast
  else some f

instance {ε α : Type} [DecidableEq ε] [DecidableEq α] :
    DecidableEq (Except ε α)
  | .ok a, .ok b =>
    if h : a = b then .isTrue (by rw [h]) else .isFalse (by simp [h])
  | .error a, .error b =>
    if h : a = b then .isTrue (by rw [h]) else .isFalse (by simp [h])
  | .ok _, .error _ => .isFalse (by simp)
  | .error _, .ok _ => .isFalse (by simp)

/-- From the spec's words (§7): the character class `[a-z0-9_]` that the spec
claims terminal candidates are validated against; to be compared with the
code's validation predicate `isRustAlphanumeric`/underscore. -/
def inSpecCharClass (c : Char) : Bool :=
  (97 ≤ c.toNat && c.toNat ≤ 122) || (48 ≤ c.toNat && c.toNat ≤ 57) ||
  c = '_'

/-- `nest k x`: `k` levels of parentheses around the string `x`. -/
def nest : Nat → Str → Str
  | 0, x => x
  | k + 1, x => '(' :: (nest k x ++ [')'])

/-- `TokenStack.push` with the defensive identity-element fallback removed:
the combining branch uses the pending left expression directly. -/
def TokenStack.pushNoFallback (st : TokenStack) (right : Expr) :
    Except BoolExprParseError TokenStack :=
  match st.expr with
  | none => .ok { st with expr := some right }
  | some l =>
    match st.op with
    | none => .error (.ConsecutiveTerminals right)
    | some .And => .ok ⟨some (Expr.And l right), none⟩
    | some .Or => .ok ⟨some (Expr.Or l right), none⟩

/-- The five operator-spelling replacements of the normaliser, in source
order (used to state facts about `normalize`; equal to its middle stage by
definition). -/
def opReplace (s : Str) : Str :=
  replaceAll [' ', 'n', 'o', 't', ' '] [' ', '!']
    (replaceAll [' ', '|', '|'] [' ', '|']
      (replaceAll [' ', 'o', 'r'] [' ', '|']
        (replaceAll [' ', '&', '&'] [' ', '&']
          (replaceAll [' ', 'a', 'n', 'd'] [' ', '&'] s))))

/-- The two parenthesis-padding replacements of the normaliser. -/
def pad2 (s : Str) : Str :=
  replaceAll [')'] [' ', ')', ' '] (replaceAll ['('] [' ', '(', ' '] s)

/-- The pieces `splitSp` produces on a padded `k`-fold nested input. -/
def nestToks : Nat → Str → List Str
  | 0, x => [x]
  | k + 1, x => [] :: ['('] :: (nestToks k x ++ [[')'], []])

/-- Whether an `Except` computation succeeded. -/
def isOkE {ε α : Type} : Except ε α → Bool
  | .ok _ => true
  | .error _ => false

/-- Number of occurrences of the character `c` in `s`. -/
def charCount (c : Char) (s : Str) : Nat := s.countP (fun d => d = c)

/-- The token `true`. -/
def trueTok : Str := ['t', 'r', 'u', 'e']

/-- The token `false`. -/
def falseTok : Str := ['f', 'a', 'l', 's', 'e']

/-- `pat` occurs as a contiguous substring of `s`. -/
def occursIn (pat s : Str) : Prop := ∃ a b, s = a ++ pat ++ b

/-- The character-wise effect of the two parenthesis-padding `replace`
calls. -/
def padChar (c : Char) : Str :=
  if c = '(' then [' ', '(', ' ']
  else if c = ')' then [' ', ')', ' ']
  else [c]

/-- Binary-operator nesting depth of a tree: the depth of parentheses its
rendering carries (a `Not` adds none). -/
def bDepth : Expr → Nat
  | .And l r => max (bDepth l) (bDepth r) + 1
  | .Or l r => max (bDepth l) (bDepth r) + 1
  | .Not i => bDepth i
  | _ => 0

/-- All terminal names occurring in a tree. -/
def namesOf : Expr → List Str
  | .Terminal n => [n]
  | .Not i => namesOf i
  | .And l r => namesOf l ++ namesOf r
  | .Or l r => namesOf l ++ namesOf r
  | .Const _ => []

/-- A character that passed the parser's validation and came from the
lowercased input: alphanumeric-or-underscore and fixed by lowercasing. -/
def CleanChar (c : Char) : Prop :=
  (isRustAlphanumeric c = true ∨ c = '_') ∧ rustToLower c = c

/-- All characters of the string are clean. -/
def CleanStr (s : Str) : Prop := ∀ c ∈ s, CleanChar c

/-- Shape of trees producible by the parser before simplification: leaves
are validated terminals, negated validated terminals (the empty name only
under a negation), or constants; a bare terminal is never named `true` or
`false` (those tokens are intercepted earlier). -/
inductive Leafy (T : List Str) : Expr → Prop
  | term {n : Str} : n ≠ [] → CleanStr n → n ∈ T → n ≠ trueTok →
      n ≠ falseTok → Leafy T (.Terminal n)
  | nterm {n : Str} : CleanStr n → n ∈ T → Leafy T (.Not (.Terminal n))
  | const {b : Bool} : Leafy T (.Const b)
  | and {a b : Expr} : Leafy T a → Leafy T b → Leafy T (.And a b)
  | or {a b : Expr} : Leafy T a → Leafy T b → Leafy T (.Or a b)

/-- Invariant carried by every accumulator during a parse: any pending
expression has the parser shape. -/
def StackOK (T : List Str) (st : TokenStack) : Prop :=
  ∀ e, st.expr = some e → Leafy T e

/-- Names in the tree avoid the shapes that the string replacements of the
normaliser corrupt. -/
def SafeNames (t : Expr) : Prop :=
  ∀ n ∈ namesOf t, leadsWith ['a', 'n', 'd'] n = false ∧
    leadsWith ['o', 'r'] n = false ∧ n ≠ ['n', 'o', 't']

/-- True when the node is not a constant. -/
def notConstB : Expr → Bool
  | .Const _ => false
  | .Terminal _ => true
  | .Not _ => true
  | .And _ _ => true
  | .Or _ _ => true

/-- True when the node is not a negation. -/
def notNotB : Expr → Bool
  | .Not _ => false
  | .Const _ => true
  | .Terminal _ => true
  | .And _ _ => true
  | .Or _ _ => true

/-- No redex for the spec-modelled simplifier remains: binary nodes have no
constant child, negations wrap neither constants nor negations. -/
def Simplified : Expr → Bool
  | .And a b => Simplified a && Simplified b && notConstB a && notConstB b
  | .Or a b => Simplified a && Simplified b && notConstB a && notConstB b
  | .Not i => Simplified i && notConstB i && notNotB i
  | .Terminal _ => true
  | .Const _ => true

/-- Helper: `TokenStack.push` never reports `NonAlphanumericToken`. -/
theorem push_ne_nonalnum (st : TokenStack) (e : Expr) (s : Str) :
    st.push e ≠ .error (.NonAlphanumericToken s) := by
  rcases st with ⟨ex, o⟩
  rcases ex with _ | l
  · rcases o with _ | op <;> simp [TokenStack.push]
  · rcases o with _ | op
    · simp [TokenStack.push]
    · cases op <;> simp [TokenStack.push]

/-- C3: evaluating the code at the failing input: parsing `"not x"` against
the allowed set `{x}` does not succeed as `!x`; the leading-`not` rewrite
uses the byte slice `&expr_str[3..]`, producing `"! x"`, whose bare `!`
token strips to the empty string and is rejected with
`UnknownTerminal("")`. -/
theorem C3_leading_not_fails :
    parse_bool_expr_str ['n', 'o', 't', ' ', 'x'] [['x']] =
      .error (.UnknownTerminal []) := by decide

/-- C7: parsing `"x and y and not z"` against `{x, y, z}` succeeds with the
left-associated tree `And(And(x, y), Not z)`, which formats to exactly
`"(x & y) & !z"`. -/
theorem C7_precedence_fixture :
    parse_bool_expr_str
        ['x', ' ', 'a', 'n', 'd', ' ', 'y', ' ', 'a', 'n', 'd', ' ',
         'n', 'o', 't', ' ', 'z'] [['x'], ['y'], ['z']] =
      .ok (.And (.And (.Terminal ['x']) (.Terminal ['y']))
        (.Not (.Terminal ['z']))) ∧
    format_bool_expr (.And (.And (.Terminal ['x']) (.Terminal ['y']))
        (.Not (.Terminal ['z']))) =
      some ['(', 'x', ' ', '&', ' ', 'y', ')', ' ', '&', ' ', '!', 'z'] := by
  decide

/-- Every character encodes to at least one byte. -/
theorem utf8Len_pos (c : Char) : 1 ≤ utf8Len c := by
  unfold utf8Len
  split_ifs <;> omega

/-- Byte length of a cons. -/
theorem byteLen_cons (c : Char) (s : Str) :
    byteLen (c :: s) = utf8Len c + byteLen s := by
  simp [byteLen]

/-- Byte length of an append. -/
theorem byteLen_append (x y : Str) :
    byteLen (x ++ y) = byteLen x + byteLen y := by
  simp [byteLen]

/-- Only the empty string has byte length zero. -/
theorem byteLen_nil_of_eq_zero {s : Str} (h : byteLen s = 0) : s = [] := by
  cases s with
  | nil => rfl
  | cons c cs =>
    exfalso
    rw [byteLen_cons] at h
    have := utf8Len_pos c
    omega

/-- The defaulted last element of a string ending in `a` is `a`. -/
theorem getLastD_append_single {α : Type} (a : α) :
    ∀ (x : List α) (d : α), (x ++ [a]).getLastD d = a := by
  intro x
  induction x with
  | nil => intro d; rfl
  | cons c cs ih =>
    intro d
    rw [List.cons_append, List.getLastD_cons]
    exact ih c

/-- C9 counterexample: formatting the tree `Terminal("(")` fails (the Rust
byte slice `&"("[1..0]` starts past its end), and formatting
`Terminal("(é")` fails as well (the rendering has byte length 3, so the
slice `[1..2]` ends inside the two-byte `é`, off a character boundary);
both contradict the claim that the formatter never fails or panics,
including on renderings that begin with `(` due to a terminal name.  A
`(`-headed ASCII rendering such as that of `Terminal("(x")` does not fail
(it is merely stripped wrongly). -/
theorem C9_counterexample :
    format_bool_expr (.Terminal ['(']) = none ∧
    format_bool_expr (.Terminal ['(', 'é']) = none ∧
    format_bool_expr (.Terminal ['(', 'x']) = some [] := by
  decide

/-- C9 amended: the formatter fails exactly when the rendering of the
simplified tree begins with `(` and either is the lone character `(` (the
byte slice starts past its end) or ends in a multi-byte character (the byte
slice ends off a character boundary); on every other tree, including other
`(`-headed renderings due to terminal names, it returns a string. -/
theorem C9_format_total_unless_slice_panic (e : Expr) :
    format_bool_expr e = none ↔
      ((fmtInner (simplify_via_laws e)).head? = some '(' ∧
        (fmtInner (simplify_via_laws e) = ['('] ∨
          utf8Len ((fmtInner (simplify_via_laws e)).getLastD ' ') ≠ 1)) := by
  unfold format_bool_expr
  rcases h : fmtInner (simplify_via_laws e) with _ | ⟨c, rest⟩
  · simp
  · by_cases hc : c = '('
    · subst hc
      have hhd : ('(' :: rest).head? = some '(' := rfl
      by_cases hb : byteLen ('(' :: rest) < 2
      · have hrest : rest = [] := by
          rw [byteLen_cons, show utf8Len '(' = 1 from by decide] at hb
          exact byteLen_nil_of_eq_zero (by omega)
        subst hrest
        rw [if_pos hhd, if_pos (show byteLen ['('] < 2 from by decide)]
        exact iff_of_true rfl ⟨rfl, .inl rfl⟩
      · by_cases hl : utf8Len (('(' :: rest).getLastD ' ') ≠ 1
        · rw [if_pos hhd, if_neg hb, if_pos hl]
          exact iff_of_true rfl ⟨rfl, .inr hl⟩
        · have hne : ¬ ('(' :: rest) = ['('] := by
            intro hcon
            obtain rfl : rest = [] := by simpa using hcon
            exact hb (by decide)
          rw [if_pos hhd, if_neg hb, if_neg hl]
          refine iff_of_false (by simp) ?_
          rintro ⟨-, hcon | hcon⟩
          · exact hne hcon
          · exact hl hcon
    · simp [List.head?, hc]

/-- C10: a token consisting of only `!` strips to the empty string, passes
the character validation vacuously, and is rejected with
`UnknownTerminal("")` when the empty string is not in the allowed set; when
the empty string is allowed, it is pushed as `Not(Terminal(""))`. -/
theorem C10_bare_bang (st : TokenStack) (T : List Str) :
    st.push_str ['!'] T =
      if ([] : Str) ∈ T then st.push (.Not (.Terminal []))
      else .error (.UnknownTerminal []) := by
  by_cases hm : ([] : Str) ∈ T <;>
    simp [TokenStack.push_str, stripNeg, isNegTok, hm]

/-- C8 counterexample: the state with a pending operator and no pending
expression is reachable from the empty accumulator by a single `push_op`
(as happens for an input beginning with `&`), refuting the claimed
invariant that a pending operator implies a pending expression. -/
theorem C8_counterexample :
    TokenStack.default.push_op .And = .ok ⟨none, some .And⟩ ∧
    (⟨none, some .And⟩ : TokenStack).op.isSome = true ∧
    (⟨none, some .And⟩ : TokenStack).expr.isNone = true := by decide

/-- C8 amended: a pending operator does not imply a pending expression
(see the counterexample), but the identity-element fallback is still never
exercised: `push` coincides with the variant whose combining branch uses the
pending left expression directly, because that branch only runs when a
pending expression exists. -/
theorem C8_fallback_never_exercised (st : TokenStack) (right : Expr) :
    st.push right = st.pushNoFallback right := by
  rcases st with ⟨ex, o⟩
  rcases ex with _ | l <;> rcases o with _ | op <;>
    first
    | rfl
    | (cases op <;> rfl)

/-- C5 counterexample: the token `é` (U+00E9, a Unicode alphabetic character
outside `[a-z0-9_]`) is accepted as a terminal when allowed, because the code
validates with Rust's Unicode `char::is_alphanumeric`, not the spec's ASCII
class. -/
theorem C5_counterexample :
    parse_bool_expr_str ['é'] [['é']] = .ok (.Terminal ['é']) ∧
    inSpecCharClass 'é' = false := by decide

/-- C5 amended: a terminal-candidate token is rejected with
`NonAlphanumericToken` (carrying the stripped token) if and only if, after
stripping a single leading `!`, it contains a character that is neither
(Unicode) alphanumeric nor `_`. -/
theorem C5_nonalnum_iff (st : TokenStack) (token : Str) (allowed : List Str) :
    st.push_str token allowed =
        .error (.NonAlphanumericToken (stripNeg token)) ↔
      (stripNeg token).any (fun c => !isRustAlphanumeric c && c ≠ '_') =
        true := by
  constructor
  · intro h
    by_contra hbad
    rw [Bool.not_eq_true] at hbad
    unfold TokenStack.push_str at h
    rw [hbad] at h
    simp only [Bool.false_eq_true, if_false] at h
    by_cases hm : stripNeg token ∈ allowed
    · rw [if_neg (by simpa using hm)] at h
      exact push_ne_nonalnum _ _ _ h
    · rw [if_pos (by simpa using hm)] at h
      exact BoolExprParseError.noConfusion (Except.error.inj h)
  · intro h
    unfold TokenStack.push_str
    rw [h]
    simp

/-- C1 counterexample: `"x & (and)"` parses (against `{x, and}`) to
`And(x, and)`, which formats to `"x & and"`; re-parsing that output fails
with `ConsecutiveOperators` because the normalizer rewrites `" and"` to
`" &"`, refuting the round-trip claim. -/
theorem C1_counterexample :
    parse_bool_expr_str ['x', ' ', '&', ' ', '(', 'a', 'n', 'd', ')']
        [['x'], ['a', 'n', 'd']] =
      .ok (.And (.Terminal ['x']) (.Terminal ['a', 'n', 'd'])) ∧
    format_bool_expr (.And (.Terminal ['x']) (.Terminal ['a', 'n', 'd'])) =
      some ['x', ' ', '&', ' ', 'a', 'n', 'd'] ∧
    parse_bool_expr_str ['x', ' ', '&', ' ', 'a', 'n', 'd']
        [['x'], ['a', 'n', 'd']] =
      .error (.ConsecutiveOperators ['a', 'n', 'd']) := by decide

/-- C2 counterexample: with bound `m = 1`, the input `"(x)"` with exactly
one level of nesting fails with `TooMuchNesting` (the stack depth counts the
implicit top-level scope, so it reaches 2 > 1), refuting the claim that
exactly `m` levels succeed under bound `m`. -/
theorem C2_counterexample :
    parse_bool_expr_str_with_max_nesting (nest 1 ['x']) [['x']] 1 =
      .error .TooMuchNesting := by decide

/-- C4 counterexample: `orange` consists only of `[a-z0-9_]` characters,
yet `"x & orange"` with allowed set `{x, orange}` fails: the normalizer
rewrites the `" or"` of `" orange"` to `" |"`, so the token `|ange` is
rejected with `NonAlphanumericToken`. -/
theorem C4_counterexample :
    (['o', 'r', 'a', 'n', 'g', 'e'].all inSpecCharClass = true) ∧
    parse_bool_expr_str
        ['x', ' ', '&', ' ', 'o', 'r', 'a', 'n', 'g', 'e']
        [['x'], ['o', 'r', 'a', 'n', 'g', 'e']] =
      .error (.NonAlphanumericToken ['|', 'a', 'n', 'g', 'e']) := by decide

/-- C6 counterexample: `"(]"` has one `(` and no `)`, yet parsing fails with
`InvalidBrackets`, not `UnmatchedBracket` carrying the input, refuting the
claim that every parenthesis-unbalanced input fails with
`UnmatchedBracket`. -/
theorem C6_counterexample :
    charCount '(' ['(', ']'] ≠ charCount ')' ['(', ']'] ∧
    parse_bool_expr_str ['(', ']'] [] = .error .InvalidBrackets := by decide

/-- Skipping `k` characters is dropping them. -/
theorem replaceAllAux_skip (pat repl : Str) :
    ∀ (s : Str) (k : Nat),
      replaceAllAux pat repl s k = replaceAllAux pat repl (s.drop k) 0 := by
  intro s
  induction s with
  | nil => intro k; cases k <;> rfl
  | cons c rest ih =>
    intro k
    cases k with
    | zero => rfl
    | succ k => simpa [replaceAllAux] using ih k

/-- One-step unfolding of `replaceAllAux` at skip 0. -/
theorem replaceAllAux_cons_zero (pat repl : Str) (c : Char) (rest : Str) :
    replaceAllAux pat repl (c :: rest) 0 =
      if (leadsWith pat (c :: rest) && !pat.isEmpty) = true then
        repl ++ replaceAllAux pat repl rest (pat.length - 1)
      else c :: replaceAllAux pat repl rest 0 := rfl

/-- `replaceAll` on a match: emit the replacement and continue past the
pattern. -/
theorem replaceAll_cons_pos {pat : Str} (repl : Str) {c : Char} {rest : Str}
    (h : leadsWith pat (c :: rest) = true) (hne : pat ≠ []) :
    replaceAll pat repl (c :: rest) =
      repl ++ replaceAll pat repl ((c :: rest).drop pat.length) := by
  have hlen : pat.length - 1 + 1 = pat.length := by
    cases pat with
    | nil => exact absurd rfl hne
    | cons p ps => simp
  have hdrop : (c :: rest).drop pat.length = rest.drop (pat.length - 1) := by
    rw [← hlen]
    rfl
  unfold replaceAll
  rw [replaceAllAux_cons_zero,
    if_pos (by simp [h, List.isEmpty_iff, hne]),
    replaceAllAux_skip, hdrop]

/-- `replaceAll` off a match: keep the character and continue. -/
theorem replaceAll_cons_neg {pat : Str} (repl : Str) {c : Char} {rest : Str}
    (h : leadsWith pat (c :: rest) = false) :
    replaceAll pat repl (c :: rest) = c :: replaceAll pat repl rest := by
  unfold replaceAll
  rw [replaceAllAux_cons_zero, if_neg (by simp [h])]

/-- `leadsWith` decides stringwise prefixing. -/
theorem leadsWith_iff (pat : Str) :
    ∀ s : Str, leadsWith pat s = true ↔ ∃ b, s = pat ++ b := by
  induction pat with
  | nil => intro s; simp [leadsWith]
  | cons p ps ih =>
    intro s
    cases s with
    | nil =>
      simp only [leadsWith, Bool.false_eq_true, false_iff]
      rintro ⟨b, hb⟩
      exact List.noConfusion hb
    | cons c cs =>
      simp only [leadsWith, Bool.and_eq_true, decide_eq_true_eq, ih cs]
      constructor
      · rintro ⟨rfl, b, rfl⟩
        exact ⟨b, rfl⟩
      · rintro ⟨b, hb⟩
        rw [List.cons_append] at hb
        obtain ⟨h1, h2⟩ := List.cons.inj hb
        exact ⟨h1.symm, b, h2⟩

/-- An occurrence in `c :: s` is either at the front or inside `s`. -/
theorem occursIn_cons {pat : Str} {c : Char} {s : Str} :
    occursIn pat (c :: s) ↔
      leadsWith pat (c :: s) = true ∨ occursIn pat s := by
  constructor
  · rintro ⟨a, b, hab⟩
    cases a with
    | nil =>
      left
      rw [leadsWith_iff]
      exact ⟨b, by simpa using hab⟩
    | cons a0 ar =>
      right
      rw [List.cons_append, List.cons_append] at hab
      obtain ⟨h1, h2⟩ := List.cons.inj hab
      exact ⟨ar, b, h2⟩
  · rintro (h | ⟨a, b, hab⟩)
    · rw [leadsWith_iff] at h
      obtain ⟨b, hb⟩ := h
      exact ⟨[], b, by simpa using hb⟩
    · exact ⟨c :: a, b, by simp [hab]⟩

/-- A string without occurrences of the pattern is left unchanged. -/
theorem replaceAll_id {pat : Str} (repl : Str) :
    ∀ {s : Str}, ¬ occursIn pat s → replaceAll pat repl s = s := by
  intro s
  induction s with
  | nil => intro _; rfl
  | cons c rest ih =>
    intro h
    rw [occursIn_cons, not_or] at h
    obtain ⟨h1, h2⟩ := h
    rw [replaceAll_cons_neg repl (by simpa using h1), ih h2]

/-- `splitSp` never returns the empty list of pieces. -/
theorem splitSp_ne_nil (s : Str) : splitSp s ≠ [] := by
  induction s with
  | nil => simp [splitSp]
  | cons c rest ih =>
    by_cases hc : c = ' '
    · simp [splitSp, hc]
    · simp only [splitSp, if_neg hc]
      cases hsp : splitSp rest with
      | nil => exact absurd hsp ih
      | cons p ps => simp [List.modifyHead]

/-- `modifyHead` over an append with a nonempty left part. -/
theorem modifyHead_append {α : Type} (f : α → α) (l l2 : List α)
    (h : l ≠ []) : (l ++ l2).modifyHead f = l.modifyHead f ++ l2 := by
  cases l with
  | nil => exact absurd rfl h
  | cons a rest => simp [List.modifyHead]

/-- `modifyHead` composes. -/
theorem modifyHead_modifyHead {α : Type} (f g : α → α) (l : List α) :
    (l.modifyHead g).modifyHead f = l.modifyHead (fun a => f (g a)) := by
  cases l <;> simp [List.modifyHead]

/-- Unfolding of `splitSp` at a space. -/
theorem splitSp_cons_space (s : Str) : splitSp (' ' :: s) = [] :: splitSp s := by
  rw [splitSp, if_pos rfl]

/-- Unfolding of `splitSp` at a non-space character. -/
theorem splitSp_cons_nospace {c : Char} (s : Str) (hc : c ≠ ' ') :
    splitSp (c :: s) = (splitSp s).modifyHead (c :: ·) := by
  rw [splitSp, if_neg hc]

/-- Splitting at an explicit space splits the pieces. -/
theorem splitSp_append_space (a b : Str) :
    splitSp (a ++ ' ' :: b) = splitSp a ++ splitSp b := by
  induction a with
  | nil => rw [List.nil_append, splitSp_cons_space]; rfl
  | cons c a ih =>
    by_cases hc : c = ' '
    · subst hc
      rw [List.cons_append, splitSp_cons_space, splitSp_cons_space, ih]
      rfl
    · rw [List.cons_append, splitSp_cons_nospace _ hc,
        splitSp_cons_nospace _ hc, ih,
        modifyHead_append _ _ _ (splitSp_ne_nil a)]

/-- A space-free string is a single piece. -/
theorem splitSp_nospace {s : Str} (h : ∀ c ∈ s, c ≠ ' ') :
    splitSp s = [s] := by
  induction s with
  | nil => rfl
  | cons c rest ih =>
    have hc : c ≠ ' ' := h c (by simp)
    rw [splitSp_cons_nospace _ hc, ih (fun d hd => h d (by simp [hd]))]
    simp [List.modifyHead]

/-- Prepending a space-free segment extends the head piece. -/
theorem splitSp_append_nospace {xs : Str} (s : Str)
    (h : ∀ c ∈ xs, c ≠ ' ') :
    splitSp (xs ++ s) = (splitSp s).modifyHead (xs ++ ·) := by
  induction xs with
  | nil =>
    cases hsp : splitSp s with
    | nil => rw [List.nil_append, hsp]; rfl
    | cons p ps => rw [List.nil_append, hsp]; simp [List.modifyHead]
  | cons c xs ih =>
    have hc : c ≠ ' ' := h c (by simp)
    rw [List.cons_append, splitSp_cons_nospace _ hc,
      ih (fun d hd => h d (by simp [hd])), modifyHead_modifyHead]
    simp only [List.cons_append]

/-- `dropWhile` with a predicate false on every element. -/
theorem dropWhile_all_false {α : Type} (p : α → Bool) (l : List α)
    (h : ∀ a ∈ l, p a = false) : l.dropWhile p = l := by
  cases l with
  | nil => rfl
  | cons a rest => rw [List.dropWhile_cons, h a (by simp)]; simp

/-- `trim` leaves whitespace-free strings unchanged. -/
theorem trim_nows {s : Str} (h : ∀ c ∈ s, rustIsWhitespace c = false) :
    trim s = s := by
  unfold trim
  rw [dropWhile_all_false _ _ h,
    dropWhile_all_false _ _ (fun a ha => h a (List.mem_reverse.mp ha)),
    List.reverse_reverse]

/-- `lowercase` fixes strings of lowercase-fixed characters. -/
theorem lowercase_fixed {s : Str} (h : ∀ c ∈ s, rustToLower c = c) :
    lowercase s = s := by
  induction s with
  | nil => rfl
  | cons c rest ih =>
    rw [lowercase, List.map_cons, h c (by simp)]
    have := ih (fun d hd => h d (by simp [hd]))
    rw [lowercase] at this
    rw [this]

/-- One-step unfolding of the token loop. -/
theorem runTokens_cons (raw : Str) (T : List Str) (m : Nat) (tok : Str)
    (toks : List Str) (top : TokenStack) (rest : List TokenStack) :
    runTokens raw T m (tok :: toks) top rest =
      if rest.length + 1 > m then .error .TooMuchNesting
      else if tok = [] then runTokens raw T m toks top rest
      else if tok = ['('] then
        runTokens raw T m toks TokenStack.default (top :: rest)
      else if tok = [')'] then
        match rest with
        | next :: others =>
          match top.finish with
          | .error e => .error e
          | .ok unwound =>
            match next.push unwound with
            | .error e => .error e
            | .ok merged => runTokens raw T m toks merged others
        | [] => .error (.UnmatchedBracket raw)
      else if tok = ['&'] then
        match top.push_op .And with
        | .error e => .error e
        | .ok top2 => runTokens raw T m toks top2 rest
      else if tok = ['|'] then
        match top.push_op .Or with
        | .error e => .error e
        | .ok top2 => runTokens raw T m toks top2 rest
      else if tok = ['t', 'r', 'u', 'e'] then
        match top.push (.Const true) with
        | .error e => .error e
        | .ok top2 => runTokens raw T m toks top2 rest
      else if tok = ['f', 'a', 'l', 's', 'e'] then
        match top.push (.Const false) with
        | .error e => .error e
        | .ok top2 => runTokens raw T m toks top2 rest
      else
        match top.push_str tok T with
        | .error e => .error e
        | .ok top2 => runTokens raw T m toks top2 rest := rfl

/-- Depth guard: any token fails when the stack is over the bound. -/
theorem run_over {raw : Str} {T : List Str} {m : Nat} {tok : Str}
    {toks : List Str} {top : TokenStack} {rest : List TokenStack}
    (h : rest.length + 1 > m) :
    runTokens raw T m (tok :: toks) top rest = .error .TooMuchNesting := by
  rw [runTokens_cons, if_pos h]

/-- Empty tokens are skipped. -/
theorem run_empty {raw : Str} {T : List Str} {m : Nat} {toks : List Str}
    {top : TokenStack} {rest : List TokenStack}
    (h : ¬(rest.length + 1 > m)) :
    runTokens raw T m ([] :: toks) top rest =
      runTokens raw T m toks top rest := by
  rw [runTokens_cons, if_neg h, if_pos rfl]

/-- An opening parenthesis pushes a fresh scope. -/
theorem run_open {raw : Str} {T : List Str} {m : Nat} {toks : List Str}
    {top : TokenStack} {rest : List TokenStack}
    (h : ¬(rest.length + 1 > m)) :
    runTokens raw T m (['('] :: toks) top rest =
      runTokens raw T m toks TokenStack.default (top :: rest) := by
  rw [runTokens_cons, if_neg h, if_neg (by decide), if_pos rfl]

/-- A closing parenthesis with an outer scope available collapses the top
scope into it. -/
theorem run_close {raw : Str} {T : List Str} {m : Nat} {toks : List Str}
    {top next : TokenStack} {others : List TokenStack}
    (h : ¬((next :: others).length + 1 > m)) :
    runTokens raw T m ([')'] :: toks) top (next :: others) =
      match top.finish with
      | .error e => .error e
      | .ok unwound =>
        match next.push unwound with
        | .error e => .error e
        | .ok merged => runTokens raw T m toks merged others := by
  rw [runTokens_cons, if_neg h, if_neg (by decide), if_neg (by decide),
    if_pos rfl]

/-- A closing parenthesis with no outer scope is an unmatched bracket. -/
theorem run_close_nil {raw : Str} {T : List Str} {m : Nat}
    {toks : List Str} {top : TokenStack} (h : ¬(0 + 1 > m)) :
    runTokens raw T m ([')'] :: toks) top [] =
      .error (.UnmatchedBracket raw) := by
  rw [runTokens_cons, if_neg (by simpa using h), if_neg (by decide),
    if_neg (by decide), if_pos rfl]

/-- An `&` token pushes the And operator. -/
theorem run_amp {raw : Str} {T : List Str} {m : Nat} {toks : List Str}
    {top : TokenStack} {rest : List TokenStack}
    (h : ¬(rest.length + 1 > m)) :
    runTokens raw T m (['&'] :: toks) top rest =
      match top.push_op .And with
      | .error e => .error e
      | .ok top2 => runTokens raw T m toks top2 rest := by
  rw [runTokens_cons, if_neg h, if_neg (by decide), if_neg (by decide),
    if_neg (by decide), if_pos rfl]

/-- A `|` token pushes the Or operator. -/
theorem run_bar {raw : Str} {T : List Str} {m : Nat} {toks : List Str}
    {top : TokenStack} {rest : List TokenStack}
    (h : ¬(rest.length + 1 > m)) :
    runTokens raw T m (['|'] :: toks) top rest =
      match top.push_op .Or with
      | .error e => .error e
      | .ok top2 => runTokens raw T m toks top2 rest := by
  rw [runTokens_cons, if_neg h, if_neg (by decide), if_neg (by decide),
    if_neg (by decide), if_neg (by decide), if_pos rfl]

/-- A `true` token pushes the true constant. -/
theorem run_true {raw : Str} {T : List Str} {m : Nat} {toks : List Str}
    {top : TokenStack} {rest : List TokenStack}
    (h : ¬(rest.length + 1 > m)) :
    runTokens raw T m (['t', 'r', 'u', 'e'] :: toks) top rest =
      match top.push (.Const true) with
      | .error e => .error e
      | .ok top2 => runTokens raw T m toks top2 rest := by
  rw [runTokens_cons, if_neg h, if_neg (by decide), if_neg (by decide),
    if_neg (by decide), if_neg (by decide), if_neg (by decide), if_pos rfl]

/-- A `false` token pushes the false constant. -/
theorem run_false {raw : Str} {T : List Str} {m : Nat} {toks : List Str}
    {top : TokenStack} {rest : List TokenStack}
    (h : ¬(rest.length + 1 > m)) :
    runTokens raw T m (['f', 'a', 'l', 's', 'e'] :: toks) top rest =
      match top.push (.Const false) with
      | .error e => .error e
      | .ok top2 => runTokens raw T m toks top2 rest := by
  rw [runTokens_cons, if_neg h, if_neg (by decide), if_neg (by decide),
    if_neg (by decide), if_neg (by decide), if_neg (by decide),
    if_neg (by decide), if_pos rfl]

/-- Any other token is a terminal candidate and goes through `push_str`. -/
theorem run_other {raw : Str} {T : List Str} {m : Nat} {tok : Str}
    {toks : List Str} {top : TokenStack} {rest : List TokenStack}
    (h : ¬(rest.length + 1 > m)) (h1 : tok ≠ []) (h2 : tok ≠ ['('])
    (h3 : tok ≠ [')']) (h4 : tok ≠ ['&']) (h5 : tok ≠ ['|'])
    (h6 : tok ≠ ['t', 'r', 'u', 'e']) (h7 : tok ≠ ['f', 'a', 'l', 's', 'e']) :
    runTokens raw T m (tok :: toks) top rest =
      match top.push_str tok T with
      | .error e => .error e
      | .ok top2 => runTokens raw T m toks top2 rest := by
  rw [runTokens_cons, if_neg h, if_neg h1, if_neg h2, if_neg h3, if_neg h4,
    if_neg h5, if_neg h6, if_neg h7]

/-- Running concatenated token lists runs the pieces in sequence. -/
theorem run_append (raw : Str) (T : List Str) (m : Nat) (xs : List Str) :
    ∀ (ys : List Str) (top : TokenStack) (rest : List TokenStack),
      runTokens raw T m (xs ++ ys) top rest =
        match runTokens raw T m xs top rest with
        | .error e => .error e
        | .ok (t, r) => runTokens raw T m ys t r := by
  induction xs with
  | nil => intro ys top rest; rfl
  | cons tok xs ih =>
    intro ys top rest
    rw [List.cons_append]
    by_cases hover : rest.length + 1 > m
    · rw [run_over hover, run_over hover]
    · by_cases he : tok = []
      · subst he
        rw [run_empty hover, run_empty hover, ih]
      · by_cases ho : tok = ['(']
        · subst ho
          rw [run_open hover, run_open hover, ih]
        · by_cases hc : tok = [')']
          · subst hc
            cases rest with
            | nil =>
              rw [run_close_nil (by simpa using hover),
                run_close_nil (by simpa using hover)]
            | cons next others =>
              rw [run_close hover, run_close hover]
              cases hfin : top.finish with
              | error e => rfl
              | ok unwound =>
                simp only []
                cases hpu : next.push unwound with
                | error e => rfl
                | ok merged => exact ih ys merged others
          · by_cases ha : tok = ['&']
            · subst ha
              rw [run_amp hover, run_amp hover]
              cases hop : top.push_op .And with
              | error e => rfl
              | ok top2 => exact ih ys top2 rest
            · by_cases hb : tok = ['|']
              · subst hb
                rw [run_bar hover, run_bar hover]
                cases hop : top.push_op .Or with
                | error e => simp only []
                | ok top2 => simp only []; exact ih ys top2 rest
              · by_cases ht : tok = ['t', 'r', 'u', 'e']
                · subst ht
                  rw [run_true hover, run_true hover]
                  cases hop : top.push (.Const true) with
                  | error e => rfl
                  | ok top2 => exact ih ys top2 rest
                · by_cases hf : tok = ['f', 'a', 'l', 's', 'e']
                  · subst hf
                    rw [run_false hover, run_false hover]
                    cases hop : top.push (.Const false) with
                    | error e => rfl
                    | ok top2 => exact ih ys top2 rest
                  · rw [run_other hover he ho hc ha hb ht hf,
                      run_other hover he ho hc ha hb ht hf]
                    cases hop : top.push_str tok T with
                    | error e => rfl
                    | ok top2 => exact ih ys top2 rest

/-- `normalize` spelled with the named stages. -/
theorem normalize_eq (raw : Str) :
    normalize raw =
      if leadsWith ['n', 'o', 't', ' '] (pad2 (opReplace (lowercase raw)))
      then '!' :: (pad2 (opReplace (lowercase raw))).drop 3
      else pad2 (opReplace (lowercase raw)) := rfl

/-- `parse_bool_expr_str_with_max_nesting` spelled out. -/
theorem parse_eq (raw : Str) (T : List Str) (m : Nat) :
    parse_bool_expr_str_with_max_nesting raw T m =
      if hasIllegalBrackets (normalize raw) then .error .InvalidBrackets
      else
        match runTokens raw T m (tokensOf (normalize raw))
            TokenStack.default [] with
        | .error e => .error e
        | .ok (top, rest) =>
          if rest.length + 1 > 1 then .error (.UnmatchedBracket raw)
          else
            match top.finish with
            | .error e => .error e
            | .ok e => .ok (simplify_via_laws e) := rfl

/-- An occurrence puts all pattern characters into the string. -/
theorem occursIn_subset {pat s : Str} (h : occursIn pat s) :
    ∀ c ∈ pat, c ∈ s := by
  obtain ⟨a, b, rfl⟩ := h
  intro c hc
  simp [hc]

/-- A pattern containing a space cannot occur in a space-free string. -/
theorem not_occursIn_of_space {pat s : Str} (hpat : ' ' ∈ pat)
    (hs : ' ' ∉ s) : ¬ occursIn pat s :=
  fun h => hs (occursIn_subset h ' ' hpat)

/-- The operator replacements fix a string free of their patterns. -/
theorem opReplace_id {s : Str}
    (h1 : ¬ occursIn [' ', 'a', 'n', 'd'] s)
    (h2 : ¬ occursIn [' ', '&', '&'] s)
    (h3 : ¬ occursIn [' ', 'o', 'r'] s)
    (h4 : ¬ occursIn [' ', '|', '|'] s)
    (h5 : ¬ occursIn [' ', 'n', 'o', 't', ' '] s) :
    opReplace s = s := by
  unfold opReplace
  rw [replaceAll_id _ h1, replaceAll_id _ h2, replaceAll_id _ h3,
    replaceAll_id _ h4, replaceAll_id _ h5]

/-- Single-character patterns replace character-wise. -/
theorem replaceAll_single (p : Char) (r : Str) :
    ∀ s : Str,
      replaceAll [p] r s = s.flatMap (fun c => if c = p then r else [c]) := by
  intro s
  induction s with
  | nil => rfl
  | cons c rest ih =>
    by_cases hc : c = p
    · subst hc
      rw [replaceAll_cons_pos r (by simp [leadsWith]) (by simp),
        List.flatMap_cons, if_pos rfl]
      simpa using ih
    · have hpc : ¬ p = c := fun h => hc h.symm
      have hlw : leadsWith [p] (c :: rest) = false := by
        simp [leadsWith, hpc]
      rw [replaceAll_cons_neg r hlw, List.flatMap_cons, if_neg hc, ih]
      rfl

/-- Padding is a character-wise expansion. -/
theorem pad2_flatMap (s : Str) : pad2 s = s.flatMap padChar := by
  unfold pad2
  rw [replaceAll_single, replaceAll_single, List.flatMap_assoc]
  congr 1
  funext c
  by_cases hp : c = '('
  · subst hp; rfl
  · by_cases hq : c = ')'
    · subst hq; rfl
    · simp [padChar, hp, hq]

/-- Padding fixes parenthesis-free strings. -/
theorem pad2_parenfree {s : Str} (h : ∀ c ∈ s, c ≠ '(' ∧ c ≠ ')') :
    pad2 s = s := by
  rw [pad2_flatMap]
  induction s with
  | nil => rfl
  | cons c rest ih =>
    rw [List.flatMap_cons]
    have hc := h c (by simp)
    rw [show padChar c = [c] by simp [padChar, hc.1, hc.2]]
    rw [ih (fun d hd => h d (by simp [hd]))]
    rfl

/-- Characters of a padded string. -/
theorem mem_pad2 {c : Char} {s : Str} (h : c ∈ pad2 s) :
    c = ' ' ∨ c = '(' ∨ c = ')' ∨ c ∈ s := by
  rw [pad2_flatMap] at h
  rw [List.mem_flatMap] at h
  obtain ⟨d, hd, hcd⟩ := h
  by_cases hp : d = '('
  · subst hp
    have h2 : c = ' ' ∨ c = '(' ∨ c = ' ' := by simpa [padChar] using hcd
    rcases h2 with rfl | rfl | rfl <;> simp
  · by_cases hq : d = ')'
    · subst hq
      have h2 : c = ' ' ∨ c = ')' ∨ c = ' ' := by simpa [padChar] using hcd
      rcases h2 with rfl | rfl | rfl <;> simp
    · simp only [padChar, if_neg hp, if_neg hq, List.mem_singleton] at hcd
      subst hcd
      exact .inr (.inr (.inr hd))

/-- A clean character is none of the structural characters. -/
theorem cleanChar_not_special {c : Char} (h : CleanChar c) :
    c ≠ ' ' ∧ c ≠ '(' ∧ c ≠ ')' ∧ c ≠ '&' ∧ c ≠ '|' ∧ c ≠ '!' := by
  obtain ⟨h1 | rfl, _⟩ := h
  · refine ⟨?_, ?_, ?_, ?_, ?_, ?_⟩ <;>
      (rintro rfl; exact absurd h1 (by decide))
  · decide

/-- A clean character is not whitespace. -/
theorem cleanChar_not_ws {c : Char} (h : CleanChar c) :
    rustIsWhitespace c = false := by
  obtain ⟨h1 | rfl, _⟩ := h
  · simp only [isRustAlphanumeric, Bool.or_eq_true, Bool.and_eq_true,
      decide_eq_true_eq] at h1
    simp only [rustIsWhitespace, Bool.or_eq_false_iff, decide_eq_false_iff_not]
    omega
  · decide

/-- A clean character is not an illegal bracket. -/
theorem cleanChar_not_illegal {c : Char} (h : CleanChar c) :
    (c = '[' || c = ']' || c = Char.ofNat 0x7B || c = Char.ofNat 0x7D ||
      c = '<' || c = '>') = false := by
  obtain ⟨h1 | rfl, _⟩ := h
  · simp only [Bool.or_eq_false_iff, decide_eq_false_iff_not]
    refine ⟨⟨⟨⟨⟨?_, ?_⟩, ?_⟩, ?_⟩, ?_⟩, ?_⟩ <;>
      (rintro rfl; exact absurd h1 (by decide))
  · decide

/-- A clean, allowed token goes through `push_str` as a plain terminal. -/
theorem push_str_clean (st : TokenStack) {x : Str} {T : List Str}
    (hc : CleanStr x) (hmem : x ∈ T) :
    st.push_str x T = st.push (.Terminal x) := by
  have hstrip : stripNeg x = x := by
    cases x with
    | nil => rfl
    | cons c r =>
      have := (cleanChar_not_special (hc c (by simp))).2.2.2.2.2
      simp [stripNeg, this]
  have hneg : isNegTok x = false := by
    cases x with
    | nil => rfl
    | cons c r =>
      have := (cleanChar_not_special (hc c (by simp))).2.2.2.2.2
      simp [isNegTok, this]
  have hval : x.any (fun c => !isRustAlphanumeric c && c ≠ '_') = false := by
    rw [List.any_eq_false]
    intro c hcx
    obtain ⟨ha | rfl, _⟩ := hc c hcx
    · simp [ha]
    · simp
  unfold TokenStack.push_str
  rw [hstrip, hval]
  simp only [Bool.false_eq_true, if_false]
  rw [if_neg (by simpa using hmem), hneg]
  simp

/-- Characters of a nested input. -/
theorem mem_nest {x : Str} {c : Char} :
    ∀ {k : Nat}, c ∈ nest k x → c = '(' ∨ c = ')' ∨ c ∈ x := by
  intro k
  induction k with
  | zero => intro h; exact .inr (.inr h)
  | succ k ih =>
    intro h
    simp only [nest, List.mem_cons, List.mem_append] at h
    rcases h with rfl | h | h
    · exact .inl rfl
    · exact ih h
    · have : c = ')' := by simpa using h
      exact .inr (.inl this)

/-- No space occurs in a nested clean input. -/
theorem space_not_in_nest {x : Str} (hc : CleanStr x) (k : Nat) :
    ' ' ∉ nest k x := by
  intro h
  rcases mem_nest h with h0 | h0 | h0
  · exact absurd h0.symm (by decide)
  · exact absurd h0.symm (by decide)
  · exact (cleanChar_not_special (hc _ h0)).1 rfl

/-- Lowercasing fixes a nested clean input. -/
theorem lowercase_nest {x : Str} (hc : CleanStr x) (k : Nat) :
    lowercase (nest k x) = nest k x := by
  apply lowercase_fixed
  intro c hck
  rcases mem_nest hck with rfl | rfl | h0
  · decide
  · decide
  · exact (hc c h0).2

/-- The operator replacements fix a nested clean input. -/
theorem opReplace_nest {x : Str} (hc : CleanStr x) (k : Nat) :
    opReplace (nest k x) = nest k x := by
  have hs := space_not_in_nest hc k
  exact opReplace_id
    (not_occursIn_of_space (by decide) hs)
    (not_occursIn_of_space (by decide) hs)
    (not_occursIn_of_space (by decide) hs)
    (not_occursIn_of_space (by decide) hs)
    (not_occursIn_of_space (by decide) hs)

/-- Padding of a nested input unfolds one level. -/
theorem pad2_nest_succ (x : Str) (k : Nat) :
    pad2 (nest (k + 1) x) =
      ' ' :: '(' :: ' ' :: (pad2 (nest k x) ++ [' ', ')', ' ']) := by
  rw [pad2_flatMap, pad2_flatMap]
  show (('(' :: (nest k x ++ [')'])).flatMap padChar) = _
  rw [List.flatMap_cons, List.flatMap_append]
  rfl

/-- Splitting the padded nested input yields the nested token pieces. -/
theorem splitSp_pad2_nest {x : Str} (hc : CleanStr x) :
    ∀ k, splitSp (pad2 (nest k x)) = nestToks k x := by
  intro k
  induction k with
  | zero =>
    show splitSp (pad2 x) = [x]
    rw [pad2_parenfree
      (fun d hd => ⟨(cleanChar_not_special (hc d hd)).2.1,
        (cleanChar_not_special (hc d hd)).2.2.1⟩)]
    exact splitSp_nospace (fun d hd => (cleanChar_not_special (hc d hd)).1)
  | succ k ih =>
    rw [pad2_nest_succ, splitSp_cons_space,
      splitSp_cons_nospace _ (by decide),
      splitSp_cons_space]
    rw [show pad2 (nest k x) ++ [' ', ')', ' '] =
        pad2 (nest k x) ++ ' ' :: [')', ' '] from rfl,
      splitSp_append_space, ih]
    rfl

/-- Trimming fixes the nested token pieces. -/
theorem map_trim_nestToks {x : Str} (hc : CleanStr x) :
    ∀ k, (nestToks k x).map trim = nestToks k x := by
  intro k
  induction k with
  | zero =>
    simp only [nestToks, List.map_cons, List.map_nil]
    rw [trim_nows (fun d hd => cleanChar_not_ws (hc d hd))]
  | succ k ih =>
    simp only [nestToks, List.map_cons, List.map_append, List.map_nil]
    rw [show trim [] = [] from rfl, show trim ['('] = ['('] from rfl,
      show trim [')'] = [')'] from rfl, ih]

/-- The normaliser on a nested clean input is exactly the padding. -/
theorem normalize_nest {x : Str} (hc : CleanStr x) (k : Nat) :
    normalize (nest k x) = pad2 (nest k x) := by
  have hlow := lowercase_nest hc k
  have hop := opReplace_nest hc k
  have hnotpfx : leadsWith ['n', 'o', 't', ' '] (pad2 (nest k x)) = false := by
    cases k with
    | zero =>
      show leadsWith _ (pad2 x) = false
      rw [pad2_parenfree
        (fun d hd => ⟨(cleanChar_not_special (hc d hd)).2.1,
          (cleanChar_not_special (hc d hd)).2.2.1⟩)]
      by_contra hlw
      rw [Bool.not_eq_false, leadsWith_iff] at hlw
      obtain ⟨b, hb⟩ := hlw
      exact (cleanChar_not_special (hc ' ' (by rw [hb]; simp))).1 rfl
    | succ k2 =>
      rw [pad2_nest_succ]
      simp [leadsWith]
  rw [normalize_eq, hlow, hop, hnotpfx]
  simp

/-- Tokens of a nested clean input. -/
theorem tokensOf_normalize_nest {x : Str} (hc : CleanStr x) (k : Nat) :
    tokensOf (normalize (nest k x)) = nestToks k x := by
  rw [normalize_nest hc k]
  unfold tokensOf
  rw [splitSp_pad2_nest hc, map_trim_nestToks hc]

/-- A nested clean input never trips the illegal-bracket scan. -/
theorem no_illegal_nest {x : Str} (hc : CleanStr x) (k : Nat) :
    hasIllegalBrackets (normalize (nest k x)) = false := by
  rw [normalize_nest hc k]
  unfold hasIllegalBrackets
  rw [List.any_eq_false]
  intro c hcmem
  rcases mem_pad2 hcmem with rfl | rfl | rfl | h0
  · decide
  · decide
  · decide
  · rcases mem_nest h0 with rfl | rfl | h1
    · decide
    · decide
    · simp [cleanChar_not_illegal (hc c h1)]

/-- Running the tokens of an over-deep nesting always trips the depth
guard. -/
theorem run_nest_fail (raw x : Str) (T : List Str) :
    ∀ (k m : Nat) (more : List Str) (top : TokenStack)
      (rest : List TokenStack), m + 1 ≤ k + rest.length →
      runTokens raw T m (nestToks k x ++ more) top rest =
        .error .TooMuchNesting := by
  intro k
  induction k with
  | zero =>
    intro m more top rest hk
    have : rest.length + 1 > m := by omega
    exact run_over this
  | succ k ih =>
    intro m more top rest hk
    by_cases hov : rest.length + 1 > m
    · exact run_over hov
    · show runTokens raw T m
        ([] :: ['('] :: ((nestToks k x ++ [[')'], []]) ++ more)) top rest = _
      rw [run_empty hov, run_open hov, List.append_assoc]
      exact ih m ([[')'], []] ++ more) TokenStack.default (top :: rest)
        (by simp; omega)

/-- Running the tokens of an in-bound nesting pushes the terminal into the
current scope. -/
theorem run_nest_ok (raw x : Str) (T : List Str) (m : Nat)
    (hx : x ≠ []) (hc : CleanStr x) (hmem : x ∈ T) (htt : x ≠ trueTok)
    (hff : x ≠ falseTok) :
    ∀ (k : Nat) (more : List Str) (top : TokenStack)
      (rest : List TokenStack), rest.length + 1 + k ≤ m →
      runTokens raw T m (nestToks k x ++ more) top rest =
        match top.push (.Terminal x) with
        | .error e => .error e
        | .ok top2 => runTokens raw T m more top2 rest := by
  intro k
  induction k with
  | zero =>
    intro more top rest hk
    have hov : ¬(rest.length + 1 > m) := by omega
    show runTokens raw T m (x :: more) top rest = _
    rw [run_other hov hx
      (fun h => (cleanChar_not_special (hc '(' (by rw [h]; simp))).2.1 rfl)
      (fun h => (cleanChar_not_special (hc ')' (by rw [h]; simp))).2.2.1 rfl)
      (fun h => (cleanChar_not_special (hc '&' (by rw [h]; simp))).2.2.2.1 rfl)
      (fun h =>
        (cleanChar_not_special (hc '|' (by rw [h]; simp))).2.2.2.2.1 rfl)
      htt hff]
    rw [push_str_clean top hc hmem]
  | succ k ih =>
    intro more top rest hk
    have hov : ¬(rest.length + 1 > m) := by omega
    show runTokens raw T m
      ([] :: ['('] :: ((nestToks k x ++ [[')'], []]) ++ more)) top rest = _
    rw [run_empty hov, run_open hov, List.append_assoc,
      ih ([[')'], []] ++ more) TokenStack.default (top :: rest)
        (by simp; omega)]
    rw [show TokenStack.default.push (.Terminal x) =
      .ok ⟨some (.Terminal x), none⟩ from rfl]
    simp only []
    have hov2 : ¬((top :: rest).length + 1 > m) := by simp; omega
    rw [show ([[')'], []] ++ more) = [')'] :: ([] :: more) from rfl,
      run_close hov2]
    rw [show (⟨some (.Terminal x), none⟩ : TokenStack).finish =
      .ok (.Terminal x) from rfl]
    simp only []
    cases hpu : top.push (.Terminal x) with
    | error e => rfl
    | ok merged =>
      simp only []
      rw [run_empty hov]

/-- C2 amended: with bound `m`, an input of `m + 1` nested parenthesis levels
around an allowed clean terminal fails with `TooMuchNesting`; exactly `m`
levels also fail under bound `m` (see the counterexample), succeeding only
when the bound is at least `m + 1`, because the depth check counts the
implicit top-level scope. -/
theorem C2_nesting_bound (m : Nat) (x : Str) (T : List Str) (hx : x ≠ [])
    (hc : CleanStr x) (hmem : x ∈ T) (htt : x ≠ trueTok)
    (hff : x ≠ falseTok) :
    parse_bool_expr_str_with_max_nesting (nest (m + 1) x) T m =
      .error .TooMuchNesting ∧
    parse_bool_expr_str_with_max_nesting (nest m x) T (m + 1) =
      .ok (.Terminal x) := by
  constructor
  · rw [parse_eq, no_illegal_nest hc]
    simp only [Bool.false_eq_true, if_false]
    rw [tokensOf_normalize_nest hc]
    rw [show nestToks (m + 1) x = nestToks (m + 1) x ++ [] by simp]
    rw [run_nest_fail (nest (m + 1) x) x T (m + 1) m [] TokenStack.default []
      (by simp)]
  · rw [parse_eq, no_illegal_nest hc]
    simp only [Bool.false_eq_true, if_false]
    rw [tokensOf_normalize_nest hc]
    rw [show nestToks m x = nestToks m x ++ [] by simp]
    rw [run_nest_ok (nest m x) x T (m + 1) hx hc hmem htt hff m []
      TokenStack.default [] (by simp; omega)]
    rfl

/-- C2 witness: bound 2 rejects three nesting levels around an allowed
terminal with `TooMuchNesting`, and bound 3 accepts them. -/
theorem C2_nesting_bound_witness :
    parse_bool_expr_str_with_max_nesting (nest 3 ['x']) [['x']] 2 =
      .error .TooMuchNesting ∧
    parse_bool_expr_str_with_max_nesting (nest 2 ['x']) [['x']] 3 =
      .ok (.Terminal ['x']) :=
  C2_nesting_bound 2 ['x'] [['x']] (by decide)
    (fun c hc => by
      have : c = 'x' := by simpa using hc
      subst this
      exact ⟨.inl (by decide), by decide⟩)
    (by decide) (by decide) (by decide)

/-- `Char.ofNat` on a scalar value below the surrogate range. -/
theorem charOfNat_toNat {n : Nat} (h : n < 0xD800) :
    (Char.ofNat n).toNat = n := by
  unfold Char.ofNat
  rw [dif_pos]
  · rfl
  · left; exact h

/-- Lowercasing maps nothing new onto characters below `A`. -/
theorem rustToLower_low {d c : Char} (hc : c.toNat < 65)
    (h : rustToLower d = c) : d = c := by
  unfold rustToLower at h
  by_cases hd : 65 ≤ d.toNat ∧ d.toNat ≤ 90
  · rw [if_pos hd] at h
    have := congrArg Char.toNat h
    rw [charOfNat_toNat (by omega)] at this
    omega
  · rwa [if_neg hd] at h

/-- Characters below `A` keep their count under lowercasing. -/
theorem charCount_lowercase {c : Char} (hc : c.toNat < 65) (s : Str) :
    charCount c (lowercase s) = charCount c s := by
  induction s with
  | nil => rfl
  | cons d rest ih =>
    unfold lowercase at ih ⊢
    rw [List.map_cons]
    unfold charCount at ih ⊢
    rw [List.countP_cons, List.countP_cons, ih]
    by_cases hd : d = c
    · subst hd
      have hfix : rustToLower d = d := by
        unfold rustToLower
        rw [if_neg (by omega)]
      rw [hfix]
    · have : rustToLower d ≠ c := fun h => hd (rustToLower_low hc h)
      simp [hd, this]

/-- The empty pattern never matches. -/
theorem replaceAll_nilpat (repl s : Str) : replaceAll [] repl s = s := by
  induction s with
  | nil => rfl
  | cons c rest ih =>
    unfold replaceAll at ih ⊢
    rw [replaceAllAux_cons_zero, if_neg (by simp), ih]

/-- A replacement with pattern and replacement holding equally many copies of
`c` keeps the count of `c`. -/
theorem replaceAll_charCount {c : Char} {pat repl : Str}
    (h : charCount c pat = charCount c repl) (s : Str) :
    charCount c (replaceAll pat repl s) = charCount c s := by
  have H : ∀ (n : Nat) (s : Str), s.length ≤ n →
      charCount c (replaceAll pat repl s) = charCount c s := by
    intro n
    induction n with
    | zero =>
      intro s hs
      have hnil : s = [] := List.length_eq_zero.mp (by omega)
      rw [hnil]
      rfl
    | succ n ihn =>
      intro s hs
      cases s with
      | nil => rfl
      | cons d rest =>
        by_cases hpat : pat = []
        · subst hpat; rw [replaceAll_nilpat]
        · by_cases hlw : leadsWith pat (d :: rest) = true
          · rw [replaceAll_cons_pos repl hlw hpat]
            obtain ⟨b, hb⟩ := (leadsWith_iff pat (d :: rest)).mp hlw
            have hdrop : (d :: rest).drop pat.length = b := by
              rw [hb, List.drop_left]
            have hlenpat : 1 ≤ pat.length := by
              cases pat with
              | nil => exact absurd rfl hpat
              | cons p ps => simp
            have hlenb : b.length ≤ n := by
              have := congrArg List.length hb
              simp at this hs
              omega
            unfold charCount
            rw [List.countP_append, hdrop, hb, List.countP_append]
            have := ihn b hlenb
            unfold charCount at this h
            rw [this, h]
          · rw [replaceAll_cons_neg repl (by simpa using hlw)]
            unfold charCount
            rw [List.countP_cons, List.countP_cons]
            have := ihn rest (by simp at hs; omega)
            unfold charCount at this
            rw [this]
  exact H s.length s le_rfl

/-- The operator replacements keep parenthesis counts. -/
theorem opReplace_charCount_paren (c : Char) (hc : c = '(' ∨ c = ')')
    (s : Str) : charCount c (opReplace s) = charCount c s := by
  have hcnt : ∀ pat repl : Str, charCount c pat = 0 → charCount c repl = 0 →
      ∀ u, charCount c (replaceAll pat repl u) = charCount c u := by
    intro pat repl h1 h2 u
    exact replaceAll_charCount (by rw [h1, h2]) u
  unfold opReplace
  rcases hc with rfl | rfl <;>
    rw [hcnt _ _ (by decide) (by decide), hcnt _ _ (by decide) (by decide),
      hcnt _ _ (by decide) (by decide), hcnt _ _ (by decide) (by decide),
      hcnt _ _ (by decide) (by decide)]

/-- Padding keeps parenthesis counts. -/
theorem pad2_charCount_paren (c : Char) (hc : c = '(' ∨ c = ')') (s : Str) :
    charCount c (pad2 s) = charCount c s := by
  unfold pad2
  rcases hc with rfl | rfl <;>
    rw [replaceAll_charCount (by decide), replaceAll_charCount (by decide)]

/-- Trimming only removes characters. -/
theorem mem_trim {d : Char} {s : Str} (h : d ∈ trim s) : d ∈ s := by
  unfold trim at h
  rw [List.mem_reverse] at h
  have h2 : d ∈ (s.dropWhile rustIsWhitespace).reverse :=
    (List.dropWhile_sublist rustIsWhitespace).mem h
  rw [List.mem_reverse] at h2
  exact (List.dropWhile_sublist rustIsWhitespace).mem h2

/-- `pad2` unfolds character-wise. -/
theorem pad2_cons (c : Char) (z : Str) :
    pad2 (c :: z) = padChar c ++ pad2 z := by
  rw [pad2_flatMap, List.flatMap_cons, ← pad2_flatMap]

/-- In the split of a padded string, the head piece never holds a
parenthesis, and the pieces equal to `(` and `)` count exactly the
parenthesis characters of the unpadded string. -/
theorem pad2_tok_count (z : Str) :
    ('(' ∉ (splitSp (pad2 z)).headI ∧ ')' ∉ (splitSp (pad2 z)).headI) ∧
    (tokensOf (pad2 z)).countP (fun t => t = ['(']) = charCount '(' z ∧
    (tokensOf (pad2 z)).countP (fun t => t = [')']) = charCount ')' z := by
  induction z with
  | nil => decide
  | cons c z ih =>
    obtain ⟨⟨ihh1, ihh2⟩, ihc1, ihc2⟩ := ih
    rw [pad2_cons]
    by_cases hpo : c = '('
    · subst hpo
      have hsplit : splitSp (padChar '(' ++ pad2 z) =
          [] :: ['('] :: splitSp (pad2 z) := by
        rw [show padChar '(' ++ pad2 z = ' ' :: '(' :: ' ' :: pad2 z from rfl,
          splitSp_cons_space, splitSp_cons_nospace _ (by decide),
          splitSp_cons_space]
        rfl
      unfold tokensOf at ihc1 ihc2 ⊢
      unfold charCount at ihc1 ihc2 ⊢
      rw [hsplit]
      simp only [List.map_cons, List.countP_cons,
        show trim [] = [] from rfl, show trim ['('] = ['('] from rfl,
        ihc1, ihc2]
      refine ⟨⟨by simp, by simp⟩, by simp, by simp⟩
    · by_cases hpc : c = ')'
      · subst hpc
        have hsplit : splitSp (padChar ')' ++ pad2 z) =
            [] :: [')'] :: splitSp (pad2 z) := by
          rw [show padChar ')' ++ pad2 z = ' ' :: ')' :: ' ' :: pad2 z
            from rfl, splitSp_cons_space, splitSp_cons_nospace _ (by decide),
            splitSp_cons_space]
          rfl
        unfold tokensOf at ihc1 ihc2 ⊢
        unfold charCount at ihc1 ihc2 ⊢
        rw [hsplit]
        simp only [List.map_cons, List.countP_cons,
          show trim [] = [] from rfl, show trim [')'] = [')'] from rfl,
          ihc1, ihc2]
        refine ⟨⟨by simp, by simp⟩, by simp, by simp⟩
      · by_cases hsp : c = ' '
        · subst hsp
          have hsplit : splitSp (padChar ' ' ++ pad2 z) =
              [] :: splitSp (pad2 z) := by
            rw [show padChar ' ' ++ pad2 z = ' ' :: pad2 z from rfl,
              splitSp_cons_space]
          unfold tokensOf at ihc1 ihc2 ⊢
          unfold charCount at ihc1 ihc2 ⊢
          rw [hsplit]
          simp only [List.map_cons, List.countP_cons,
            show trim [] = [] from rfl, ihc1, ihc2]
          refine ⟨⟨by simp, by simp⟩, by simp, by simp⟩
        · have hpad : padChar c ++ pad2 z = c :: pad2 z := by
            simp [padChar, hpo, hpc]
          obtain ⟨p0, ps, hps⟩ :
              ∃ p0 ps, splitSp (pad2 z) = p0 :: ps := by
            cases hsp2 : splitSp (pad2 z) with
            | nil => exact absurd hsp2 (splitSp_ne_nil _)
            | cons p0 ps => exact ⟨p0, ps, rfl⟩
          have hsplit : splitSp (padChar c ++ pad2 z) =
              (c :: p0) :: ps := by
            rw [hpad, splitSp_cons_nospace _ hsp, hps]
            rfl
          rw [hps] at ihh1 ihh2
          simp only [List.headI] at ihh1 ihh2
          have htok1 : trim (c :: p0) ≠ ['('] := by
            intro hteq
            have hm : '(' ∈ c :: p0 := mem_trim (by rw [hteq]; simp)
            rcases List.mem_cons.mp hm with h0 | h0
            · exact hpo h0.symm
            · exact ihh1 h0
          have htok2 : trim (c :: p0) ≠ [')'] := by
            intro hteq
            have hm : ')' ∈ c :: p0 := mem_trim (by rw [hteq]; simp)
            rcases List.mem_cons.mp hm with h0 | h0
            · exact hpc h0.symm
            · exact ihh2 h0
          have hold1 : trim p0 ≠ ['('] := by
            intro hteq
            exact ihh1 (mem_trim (by rw [hteq]; simp))
          have hold2 : trim p0 ≠ [')'] := by
            intro hteq
            exact ihh2 (mem_trim (by rw [hteq]; simp))
          unfold tokensOf at ihc1 ihc2 ⊢
          unfold charCount at ihc1 ihc2 ⊢
          rw [hsplit]
          rw [hps] at ihc1 ihc2
          simp only [List.map_cons, List.countP_cons] at ihc1 ihc2 ⊢
          rw [if_neg (by simpa using hold1)] at ihc1
          rw [if_neg (by simpa using hold2)] at ihc2
          refine ⟨⟨?_, ?_⟩, ?_, ?_⟩
          · simp only [List.headI]
            intro hmem
            rcases List.mem_cons.mp hmem with h0 | h0
            · exact hpo h0.symm
            · exact ihh1 h0
          · simp only [List.headI]
            intro hmem
            rcases List.mem_cons.mp hmem with h0 | h0
            · exact hpc h0.symm
            · exact ihh2 h0
          · rw [if_neg (by simpa using htok1), if_neg (by simpa using hpo)]
            omega
          · rw [if_neg (by simpa using htok2), if_neg (by simpa using hpc)]
            omega

/-- The `(` and `)` tokens of the fully normalised input count exactly the
parenthesis characters of the raw input. -/
theorem tok_count_normalize (raw : Str) :
    (tokensOf (normalize raw)).countP (fun t => t = ['(']) =
      charCount '(' raw ∧
    (tokensOf (normalize raw)).countP (fun t => t = [')']) =
      charCount ')' raw := by
  have hz0o : charCount '(' (opReplace (lowercase raw)) = charCount '(' raw := by
    rw [opReplace_charCount_paren '(' (.inl rfl),
      charCount_lowercase (by decide)]
  have hz0c : charCount ')' (opReplace (lowercase raw)) = charCount ')' raw := by
    rw [opReplace_charCount_paren ')' (.inr rfl),
      charCount_lowercase (by decide)]
  obtain ⟨-, hc1, hc2⟩ := pad2_tok_count (opReplace (lowercase raw))
  rw [normalize_eq]
  by_cases hlw : leadsWith ['n', 'o', 't', ' ']
      (pad2 (opReplace (lowercase raw))) = true
  · obtain ⟨b, hb⟩ := (leadsWith_iff _ _).mp hlw
    rw [if_pos hlw]
    rw [hb] at hc1 hc2 ⊢
    rw [show (['n', 'o', 't', ' '] ++ b).drop 3 = ' ' :: b from rfl]
    have hsplit1 : splitSp (['n', 'o', 't', ' '] ++ b) =
        ['n', 'o', 't'] :: splitSp b := by
      rw [show (['n', 'o', 't', ' '] ++ b) = 'n' :: 'o' :: 't' :: ' ' :: b
        from rfl, splitSp_cons_nospace _ (by decide),
        splitSp_cons_nospace _ (by decide),
        splitSp_cons_nospace _ (by decide), splitSp_cons_space]
      rfl
    have hsplit2 : splitSp ('!' :: ' ' :: b) = ['!'] :: splitSp b := by
      rw [splitSp_cons_nospace _ (by decide), splitSp_cons_space]
      rfl
    unfold tokensOf at hc1 hc2 ⊢
    rw [hsplit1] at hc1 hc2
    rw [hsplit2]
    simp only [List.map_cons, List.countP_cons] at hc1 hc2 ⊢
    rw [if_neg (by decide)] at hc1
    rw [if_neg (by decide)] at hc2
    rw [if_neg (by decide), if_neg (by decide)]
    rw [hz0o] at hc1
    rw [hz0c] at hc2
    exact ⟨by omega, by omega⟩
  · rw [if_neg hlw]
    rw [hz0o] at hc1
    rw [hz0c] at hc2
    exact ⟨hc1, hc2⟩

/-- Stack balance: a successful run leaves a stack whose depth change equals
the difference between open and close tokens. -/
theorem run_balance (raw : Str) (T : List Str) (m : Nat) :
    ∀ (toks : List Str) (top : TokenStack) (rest : List TokenStack)
      (top2 : TokenStack) (rest2 : List TokenStack),
      runTokens raw T m toks top rest = .ok (top2, rest2) →
      rest2.length + toks.countP (fun t => t = [')']) =
        rest.length + toks.countP (fun t => t = ['(']) := by
  intro toks
  induction toks with
  | nil =>
    intro top rest top2 rest2 h
    rw [show runTokens raw T m [] top rest = .ok (top, rest) from rfl] at h
    obtain ⟨-, h2⟩ := Prod.mk.injEq .. ▸ Except.ok.inj h
    simp [h2]
  | cons tok toks ih =>
    intro top rest top2 rest2 h
    by_cases hover : rest.length + 1 > m
    · rw [run_over hover] at h
      exact absurd h (by simp)
    · by_cases he : tok = []
      · subst he
        rw [run_empty hover] at h
        have := ih top rest top2 rest2 h
        simp only [List.countP_cons]
        rw [if_neg (by decide), if_neg (by decide)]
        omega
      · by_cases ho : tok = ['(']
        · subst ho
          rw [run_open hover] at h
          have := ih TokenStack.default (top :: rest) top2 rest2 h
          simp only [List.countP_cons] at this ⊢
          rw [if_neg (by decide), if_pos (by decide)]
          simp at this
          omega
        · by_cases hc : tok = [')']
          · subst hc
            cases rest with
            | nil =>
              rw [run_close_nil (by simpa using hover)] at h
              exact absurd h (by simp)
            | cons next others =>
              rw [run_close hover] at h
              cases hfin : top.finish with
              | error e => rw [hfin] at h; exact absurd h (by simp)
              | ok unwound =>
                rw [hfin] at h
                simp only [] at h
                cases hpu : next.push unwound with
                | error e => rw [hpu] at h; exact absurd h (by simp)
                | ok merged =>
                  rw [hpu] at h
                  simp only [] at h
                  have := ih merged others top2 rest2 h
                  simp only [List.countP_cons] at this ⊢
                  rw [if_pos (by decide), if_neg (by decide)]
                  simp at this ⊢
                  omega
          · have hstep : ∀ (res : Except BoolExprParseError TokenStack),
                (match res with
                  | .error e =>
                    (.error e :
                      Except BoolExprParseError (TokenStack × List TokenStack))
                  | .ok top2x => runTokens raw T m toks top2x rest) =
                    .ok (top2, rest2) →
                rest2.length + toks.countP (fun t => t = [')']) =
                  rest.length + toks.countP (fun t => t = ['(']) := by
              intro res hres
              cases res with
              | error e => exact absurd hres (by simp)
              | ok top2x => exact ih top2x rest top2 rest2 hres
            have hcnt : rest2.length + toks.countP (fun t => t = [')']) =
                rest.length + toks.countP (fun t => t = ['(']) := by
              by_cases ha : tok = ['&']
              · subst ha
                rw [run_amp hover] at h
                exact hstep _ h
              · by_cases hb : tok = ['|']
                · subst hb
                  rw [run_bar hover] at h
                  exact hstep _ h
                · by_cases ht : tok = ['t', 'r', 'u', 'e']
                  · subst ht
                    rw [run_true hover] at h
                    exact hstep _ h
                  · by_cases hf : tok = ['f', 'a', 'l', 's', 'e']
                    · subst hf
                      rw [run_false hover] at h
                      exact hstep _ h
                    · rw [run_other hover he ho hc ha hb ht hf] at h
                      exact hstep _ h
            simp only [List.countP_cons]
            rw [if_neg (by simpa using hc), if_neg (by simpa using ho)]
            omega

/-- C6 amended: an input whose `(` and `)` counts differ never parses
successfully; the failure is not always `UnmatchedBracket` (see the
counterexample), since `InvalidBrackets`, `TooMuchNesting` or an accumulator
error may fire first. -/
theorem C6_unbalanced_never_parses (raw : Str) (T : List Str) (m : Nat)
    (h : charCount '(' raw ≠ charCount ')' raw) :
    isOkE (parse_bool_expr_str_with_max_nesting raw T m) = false := by
  rw [parse_eq]
  by_cases hbr : hasIllegalBrackets (normalize raw) = true
  · rw [if_pos hbr]; rfl
  · rw [if_neg hbr]
    cases hrun : runTokens raw T m (tokensOf (normalize raw))
        TokenStack.default [] with
    | error e => rfl
    | ok pr =>
      obtain ⟨topf, restf⟩ := pr
      simp only []
      by_cases hd : restf.length + 1 > 1
      · rw [if_pos hd]; rfl
      · exfalso
        have hrest : restf = [] := by
          cases restf with
          | nil => rfl
          | cons a b => simp at hd
        subst hrest
        have hb := run_balance raw T m (tokensOf (normalize raw))
          TokenStack.default [] topf [] hrun
        obtain ⟨hc1, hc2⟩ := tok_count_normalize raw
        simp only [List.length_nil] at hb
        rw [hc1, hc2] at hb
        omega

/-- C6 witness: the lone `(` input is unbalanced and does not parse. -/
theorem C6_unbalanced_witness :
    charCount '(' ['('] ≠ charCount ')' ['('] ∧
    isOkE (parse_bool_expr_str_with_max_nesting ['('] [] 100) = false :=
  ⟨by decide, C6_unbalanced_never_parses ['('] [] 100 (by decide)⟩

/-- The spec's `[a-z0-9_]` class is contained in the clean characters. -/
theorem specClass_clean {c : Char} (h : inSpecCharClass c = true) :
    CleanChar c := by
  simp only [inSpecCharClass, Bool.or_eq_true, Bool.and_eq_true,
    decide_eq_true_eq] at h
  rcases h with (h | h) | rfl
  · constructor
    · left
      simp only [isRustAlphanumeric, Bool.or_eq_true, Bool.and_eq_true,
        decide_eq_true_eq]
      omega
    · unfold rustToLower
      rw [if_neg (by omega)]
  · constructor
    · left
      simp only [isRustAlphanumeric, Bool.or_eq_true, Bool.and_eq_true,
        decide_eq_true_eq]
      omega
    · unfold rustToLower
      rw [if_neg (by omega)]
  · exact ⟨.inr rfl, by decide⟩

/-- A space-headed pattern has no occurrence in `A & B` when it matches
neither after the first space nor at `B`, and `A`, `B` are space-free. -/
theorem not_occurs_sep {q A B : Str}
    (hq1 : leadsWith q ('&' :: ' ' :: B) = false)
    (hq2 : leadsWith q B = false)
    (hA : ' ' ∉ A) (hB : ' ' ∉ B) :
    ¬ occursIn (' ' :: q) (A ++ ' ' :: '&' :: ' ' :: B) := by
  induction A with
  | nil =>
    rw [List.nil_append]
    intro h
    rcases occursIn_cons.mp h with h0 | h0
    · rw [show leadsWith (' ' :: q) (' ' :: '&' :: ' ' :: B) =
        leadsWith q ('&' :: ' ' :: B) by simp [leadsWith], hq1] at h0
      exact absurd h0 (by simp)
    · rcases occursIn_cons.mp h0 with h1 | h1
      · rw [show leadsWith (' ' :: q) ('&' :: ' ' :: B) = false
          by simp [leadsWith]] at h1
        exact absurd h1 (by simp)
      · rcases occursIn_cons.mp h1 with h2 | h2
        · rw [show leadsWith (' ' :: q) (' ' :: B) = leadsWith q B
            by simp [leadsWith], hq2] at h2
          exact absurd h2 (by simp)
        · exact not_occursIn_of_space (by simp) hB h2
  | cons a A ihA =>
    rw [List.cons_append]
    intro h
    rcases occursIn_cons.mp h with h0 | h0
    · have ha : a ≠ ' ' := fun heq => hA (by simp [heq])
      rw [show leadsWith (' ' :: q) (a :: (A ++ ' ' :: '&' :: ' ' :: B)) =
          (decide (' ' = a) && leadsWith q (A ++ ' ' :: '&' :: ' ' :: B))
        from rfl] at h0
      simp only [Bool.and_eq_true, decide_eq_true_eq] at h0
      exact ha h0.1.symm
    · exact ihA (fun hm => hA (by simp [hm])) h0

/-- A clean name other than `not` followed by a space never produces the
leading-`not` prefix. -/
theorem not_leadsWith_notsp {u : Str} (w : Str) (hcu : CleanStr u)
    (hne : u ≠ ['n', 'o', 't']) :
    leadsWith ['n', 'o', 't', ' '] (u ++ ' ' :: w) = false := by
  by_contra hlw
  rw [Bool.not_eq_false, leadsWith_iff] at hlw
  obtain ⟨b, heq⟩ := hlw
  rcases u with _ | ⟨c1, _ | ⟨c2, _ | ⟨c3, _ | ⟨c4, u2⟩⟩⟩⟩
  · simp at heq
  · simp at heq
  · simp at heq
  · simp only [List.cons_append, List.nil_append, List.cons.injEq] at heq
    obtain ⟨rfl, rfl, rfl, -⟩ := heq
    exact hne rfl
  · simp only [List.cons_append, List.cons.injEq] at heq
    obtain ⟨-, -, -, hc4, -⟩ := heq
    exact (cleanChar_not_special (hcu c4 (by simp))).1 hc4

/-- C4 amended: for `[a-z0-9_]` terminal names `u` and `v`, both allowed,
parsing `u & v` yields `And(Terminal u, Terminal v)` provided `v` does not
begin with `and` or `or` (the word-boundary replacements would corrupt it,
see the counterexample), `u` is not exactly `not` (the leading-`not` rewrite
would corrupt it), and neither name is `true` or `false` (those parse as
constants and are simplified away). -/
theorem C4_plain_terminals (u v : Str) (T : List Str)
    (hu : u ≠ []) (hv : v ≠ [])
    (hcu : ∀ c ∈ u, inSpecCharClass c = true)
    (hcv : ∀ c ∈ v, inSpecCharClass c = true)
    (humem : u ∈ T) (hvmem : v ∈ T)
    (hvand : leadsWith ['a', 'n', 'd'] v = false)
    (hvor : leadsWith ['o', 'r'] v = false)
    (hunot : u ≠ ['n', 'o', 't'])
    (hut : u ≠ trueTok) (huf : u ≠ falseTok)
    (hvt : v ≠ trueTok) (hvf : v ≠ falseTok) :
    parse_bool_expr_str (u ++ [' ', '&', ' '] ++ v) T =
      .ok (.And (.Terminal u) (.Terminal v)) := by
  have hcu2 : CleanStr u := fun c hc => specClass_clean (hcu c hc)
  have hcv2 : CleanStr v := fun c hc => specClass_clean (hcv c hc)
  have hAsp : ' ' ∉ u := fun hm => (cleanChar_not_special (hcu2 _ hm)).1 rfl
  have hBsp : ' ' ∉ v := fun hm => (cleanChar_not_special (hcv2 _ hm)).1 rfl
  have hshape : u ++ [' ', '&', ' '] ++ v = u ++ ' ' :: '&' :: ' ' :: v := by
    simp
  rw [hshape]
  set s := u ++ ' ' :: '&' :: ' ' :: v with hs
  have hvhead : ∀ {c0 : Char} {cs : Str}, v = c0 :: cs → CleanChar c0 := by
    intro c0 cs hv0
    exact hcv2 c0 (by rw [hv0]; simp)
  have hlow : lowercase s = s := by
    apply lowercase_fixed
    intro c hc
    rw [hs] at hc
    simp only [List.mem_append, List.mem_cons] at hc
    rcases hc with h0 | rfl | rfl | rfl | h0
    · exact (hcu2 c h0).2
    · decide
    · decide
    · decide
    · exact (hcv2 c h0).2
  have hop : opReplace s = s := by
    apply opReplace_id
    · exact not_occurs_sep (by simp [leadsWith]) hvand hAsp hBsp
    · refine not_occurs_sep (by simp [leadsWith]) ?_ hAsp hBsp
      cases v with
      | nil => rfl
      | cons c0 cs =>
        have h0 : ¬('&' = c0) := fun h =>
          (cleanChar_not_special (hvhead rfl)).2.2.2.1 h.symm
        simp [leadsWith, h0]
    · exact not_occurs_sep (by simp [leadsWith]) hvor hAsp hBsp
    · refine not_occurs_sep (by simp [leadsWith]) ?_ hAsp hBsp
      cases v with
      | nil => rfl
      | cons c0 cs =>
        have h0 : ¬('|' = c0) := fun h =>
          (cleanChar_not_special (hvhead rfl)).2.2.2.2.1 h.symm
        simp [leadsWith, h0]
    · refine not_occurs_sep (by simp [leadsWith]) ?_ hAsp hBsp
      by_contra hlw
      rw [Bool.not_eq_false, leadsWith_iff] at hlw
      obtain ⟨b, hb⟩ := hlw
      exact hBsp (by rw [hb]; simp)
  have hpad : pad2 s = s := by
    apply pad2_parenfree
    intro c hc
    rw [hs] at hc
    simp only [List.mem_append, List.mem_cons] at hc
    rcases hc with h0 | rfl | rfl | rfl | h0
    · exact ⟨(cleanChar_not_special (hcu2 c h0)).2.1,
        (cleanChar_not_special (hcu2 c h0)).2.2.1⟩
    · decide
    · decide
    · decide
    · exact ⟨(cleanChar_not_special (hcv2 c h0)).2.1,
        (cleanChar_not_special (hcv2 c h0)).2.2.1⟩
  have hnorm : normalize s = s := by
    rw [normalize_eq, hlow, hop, hpad, hs,
      not_leadsWith_notsp ('&' :: ' ' :: v) hcu2 hunot]
    simp
  have hnoillegal : hasIllegalBrackets s = false := by
    unfold hasIllegalBrackets
    rw [List.any_eq_false]
    intro c hc
    rw [hs] at hc
    simp only [List.mem_append, List.mem_cons] at hc
    rcases hc with h0 | rfl | rfl | rfl | h0
    · simp [cleanChar_not_illegal (hcu2 c h0)]
    · decide
    · decide
    · decide
    · simp [cleanChar_not_illegal (hcv2 c h0)]
  have htoks : tokensOf s = [u, ['&'], v] := by
    unfold tokensOf
    rw [hs, show u ++ ' ' :: '&' :: ' ' :: v = u ++ ' ' :: ('&' :: ' ' :: v)
      from rfl, splitSp_append_space,
      splitSp_nospace (fun d hd => (cleanChar_not_special (hcu2 d hd)).1),
      splitSp_cons_nospace _ (by decide), splitSp_cons_space,
      splitSp_nospace (fun d hd => (cleanChar_not_special (hcv2 d hd)).1)]
    simp only [List.modifyHead, List.append_nil, List.cons_append,
      List.nil_append, List.map_cons, List.map_nil]
    rw [trim_nows (fun d hd => cleanChar_not_ws (hcu2 d hd)),
      trim_nows (fun d hd => cleanChar_not_ws (hcv2 d hd))]
    rfl
  have hover : ¬((0 : Nat) + 1 > 100) := by omega
  unfold parse_bool_expr_str
  rw [parse_eq, hnorm, hnoillegal]
  simp only [Bool.false_eq_true, if_false]
  rw [htoks]
  rw [run_other (by simpa using hover) hu
    (fun h => (cleanChar_not_special (hcu2 '(' (by rw [h]; simp))).2.1 rfl)
    (fun h => (cleanChar_not_special (hcu2 ')' (by rw [h]; simp))).2.2.1 rfl)
    (fun h => (cleanChar_not_special (hcu2 '&' (by rw [h]; simp))).2.2.2.1 rfl)
    (fun h =>
      (cleanChar_not_special (hcu2 '|' (by rw [h]; simp))).2.2.2.2.1 rfl)
    hut huf]
  rw [push_str_clean _ hcu2 humem]
  rw [show TokenStack.default.push (.Terminal u) =
    .ok ⟨some (.Terminal u), none⟩ from rfl]
  simp only []
  rw [run_amp (by simpa using hover)]
  rw [show (⟨some (.Terminal u), none⟩ : TokenStack).push_op .And =
    .ok ⟨some (.Terminal u), some .And⟩ from rfl]
  simp only []
  rw [run_other (by simpa using hover) hv
    (fun h => (cleanChar_not_special (hcv2 '(' (by rw [h]; simp))).2.1 rfl)
    (fun h => (cleanChar_not_special (hcv2 ')' (by rw [h]; simp))).2.2.1 rfl)
    (fun h => (cleanChar_not_special (hcv2 '&' (by rw [h]; simp))).2.2.2.1 rfl)
    (fun h =>
      (cleanChar_not_special (hcv2 '|' (by rw [h]; simp))).2.2.2.2.1 rfl)
    hvt hvf]
  rw [push_str_clean _ hcv2 hvmem]
  rw [show (⟨some (.Terminal u), some .And⟩ : TokenStack).push (.Terminal v) =
    .ok ⟨some (.And (.Terminal u) (.Terminal v)), none⟩ from rfl]
  simp only []
  rw [show runTokens s T 100 []
      (⟨some (.And (.Terminal u) (.Terminal v)), none⟩ : TokenStack) [] =
    .ok (⟨some (.And (.Terminal u) (.Terminal v)), none⟩, []) from rfl]
  simp only [List.length_nil]
  rw [if_neg (by omega)]
  rw [show (⟨some (.And (.Terminal u) (.Terminal v)), none⟩ :
      TokenStack).finish = .ok (.And (.Terminal u) (.Terminal v)) from rfl]
  simp only [simplify_via_laws, mkAnd]
  rw [if_neg (by simp), if_neg (by simp), if_neg (by simp)]

/-- C4 witness: `x & y` with both names allowed parses to
`And(Terminal x, Terminal y)`. -/
theorem C4_plain_terminals_witness :
    parse_bool_expr_str (['x'] ++ [' ', '&', ' '] ++ ['y'])
        [['x'], ['y']] =
      .ok (.And (.Terminal ['x']) (.Terminal ['y'])) :=
  C4_plain_terminals ['x'] ['y'] [['x'], ['y']] (by decide) (by decide)
    (by decide) (by decide) (by decide) (by decide) (by decide) (by decide)
    (by decide) (by decide) (by decide) (by decide) (by decide)

/-- The spec-modelled simplifier leaves no redex. -/
theorem simplified_simplify (e : Expr) :
    Simplified (simplify_via_laws e) = true := by
  induction e with
  | Terminal n => rfl
  | Const b => rfl
  | Not i ihi =>
    rw [simplify_via_laws]
    cases hsi : simplify_via_laws i with
    | Const b => rfl
    | Not j =>
      rw [hsi] at ihi
      rw [mkNot]
      simp only [Simplified, Bool.and_eq_true] at ihi
      exact ihi.1.1
    | Terminal n => rfl
    | And a b =>
      rw [hsi] at ihi
      rw [mkNot]
      show (Simplified (a.And b) && notConstB (a.And b) &&
        notNotB (a.And b)) = true
      rw [ihi]
      rfl
    | Or a b =>
      rw [hsi] at ihi
      rw [mkNot]
      show (Simplified (a.Or b) && notConstB (a.Or b) &&
        notNotB (a.Or b)) = true
      rw [ihi]
      rfl
  | And a b iha ihb =>
    rw [simplify_via_laws, mkAnd]
    by_cases h1 : simplify_via_laws a = .Const false ∨
        simplify_via_laws b = .Const false
    · rw [if_pos h1]; rfl
    · rw [if_neg h1]
      by_cases h2 : simplify_via_laws a = .Const true
      · rw [if_pos h2]; exact ihb
      · rw [if_neg h2]
        by_cases h3 : simplify_via_laws b = .Const true
        · rw [if_pos h3]; exact iha
        · rw [if_neg h3]
          have hca : notConstB (simplify_via_laws a) = true := by
            cases hsa : simplify_via_laws a with
            | Const c =>
              cases c
              · exact absurd (.inl hsa) h1
              · exact absurd hsa h2
            | _ => rfl
          have hcb : notConstB (simplify_via_laws b) = true := by
            cases hsb : simplify_via_laws b with
            | Const c =>
              cases c
              · exact absurd (.inr hsb) h1
              · exact absurd hsb h3
            | _ => rfl
          simp [Simplified, iha, ihb, hca, hcb]
  | Or a b iha ihb =>
    rw [simplify_via_laws, mkOr]
    by_cases h1 : simplify_via_laws a = .Const true ∨
        simplify_via_laws b = .Const true
    · rw [if_pos h1]; rfl
    · rw [if_neg h1]
      by_cases h2 : simplify_via_laws a = .Const false
      · rw [if_pos h2]; exact ihb
      · rw [if_neg h2]
        by_cases h3 : simplify_via_laws b = .Const false
        · rw [if_pos h3]; exact iha
        · rw [if_neg h3]
          have hca : notConstB (simplify_via_laws a) = true := by
            cases hsa : simplify_via_laws a with
            | Const c =>
              cases c
              · exact absurd hsa h2
              · exact absurd (.inl hsa) h1
            | _ => rfl
          have hcb : notConstB (simplify_via_laws b) = true := by
            cases hsb : simplify_via_laws b with
            | Const c =>
              cases c
              · exact absurd hsb h3
              · exact absurd (.inr hsb) h1
            | _ => rfl
          simp [Simplified, iha, ihb, hca, hcb]

/-- The spec-modelled simplifier fixes already-simplified trees
(idempotence, as the spec requires). -/
theorem simplify_of_simplified {e : Expr} (h : Simplified e = true) :
    simplify_via_laws e = e := by
  induction e with
  | Terminal n => rfl
  | Const b => rfl
  | Not i ihi =>
    simp only [Simplified, Bool.and_eq_true] at h
    rw [simplify_via_laws, ihi h.1.1]
    cases i with
    | Const b => simp [notConstB] at h
    | Not j => simp [notNotB] at h
    | _ => rfl
  | And a b iha ihb =>
    simp only [Simplified, Bool.and_eq_true] at h
    rw [simplify_via_laws, iha h.1.1.1, ihb h.1.1.2, mkAnd]
    have hna : a ≠ .Const false ∧ a ≠ .Const true := by
      cases a with
      | Const c => simp [notConstB] at h
      | _ => exact ⟨by simp, by simp⟩
    have hnb : b ≠ .Const false ∧ b ≠ .Const true := by
      cases b with
      | Const c => simp [notConstB] at h
      | _ => exact ⟨by simp, by simp⟩
    rw [if_neg (by tauto), if_neg hna.2, if_neg hnb.2]
  | Or a b iha ihb =>
    simp only [Simplified, Bool.and_eq_true] at h
    rw [simplify_via_laws, iha h.1.1.1, ihb h.1.1.2, mkOr]
    have hna : a ≠ .Const false ∧ a ≠ .Const true := by
      cases a with
      | Const c => simp [notConstB] at h
      | _ => exact ⟨by simp, by simp⟩
    have hnb : b ≠ .Const false ∧ b ≠ .Const true := by
      cases b with
      | Const c => simp [notConstB] at h
      | _ => exact ⟨by simp, by simp⟩
    rw [if_neg (by tauto), if_neg hna.1, if_neg hnb.1]

/-- The parser-shape predicate is preserved by the simplifier. -/
theorem leafy_simplify {T : List Str} {e : Expr} (h : Leafy T e) :
    Leafy T (simplify_via_laws e) := by
  induction h with
  | term h1 h2 h3 h4 h5 => exact .term h1 h2 h3 h4 h5
  | nterm h1 h2 => exact .nterm h1 h2
  | const => exact .const
  | @and a b ha hb iha ihb =>
    rw [simplify_via_laws, mkAnd]
    by_cases h1 : simplify_via_laws a = Expr.Const false ∨
        simplify_via_laws b = Expr.Const false
    · rw [if_pos h1]; exact .const
    · rw [if_neg h1]
      by_cases h2 : simplify_via_laws a = Expr.Const true
      · rw [if_pos h2]; exact ihb
      · rw [if_neg h2]
        by_cases h3 : simplify_via_laws b = Expr.Const true
        · rw [if_pos h3]; exact iha
        · rw [if_neg h3]; exact .and iha ihb
  | @or a b ha hb iha ihb =>
    rw [simplify_via_laws, mkOr]
    by_cases h1 : simplify_via_laws a = Expr.Const true ∨
        simplify_via_laws b = Expr.Const true
    · rw [if_pos h1]; exact .const
    · rw [if_neg h1]
      by_cases h2 : simplify_via_laws a = Expr.Const false
      · rw [if_pos h2]; exact ihb
      · rw [if_neg h2]
        by_cases h3 : simplify_via_laws b = Expr.Const false
        · rw [if_pos h3]; exact iha
        · rw [if_neg h3]; exact .or iha ihb

/-- Characters of a replacement result come from the string or the
replacement text. -/
theorem mem_replaceAllAux {pat repl : Str} {c : Char} :
    ∀ {s : Str} {k : Nat}, c ∈ replaceAllAux pat repl s k →
      c ∈ s ∨ c ∈ repl := by
  intro s
  induction s with
  | nil => intro k h; exact absurd h (by simp [replaceAllAux])
  | cons d rest ih =>
    intro k h
    cases k with
    | succ k2 =>
      rcases ih h with h0 | h0
      · exact .inl (by simp [h0])
      · exact .inr h0
    | zero =>
      rw [replaceAllAux_cons_zero] at h
      by_cases hc : (leadsWith pat (d :: rest) && !pat.isEmpty) = true
      · rw [if_pos hc] at h
        rcases List.mem_append.mp h with h0 | h0
        · exact .inr h0
        · rcases ih h0 with h1 | h1
          · exact .inl (by simp [h1])
          · exact .inr h1
      · rw [if_neg hc] at h
        rcases List.mem_cons.mp h with rfl | h0
        · exact .inl (by simp)
        · rcases ih h0 with h1 | h1
          · exact .inl (by simp [h1])
          · exact .inr h1

/-- Characters of a replacement result come from the string or the
replacement text. -/
theorem mem_replaceAll {pat repl s : Str} {c : Char}
    (h : c ∈ replaceAll pat repl s) : c ∈ s ∨ c ∈ repl :=
  mem_replaceAllAux h

/-- The lowercase map is idempotent. -/
theorem rustToLower_idem (c : Char) :
    rustToLower (rustToLower c) = rustToLower c := by
  unfold rustToLower
  by_cases hd : 65 ≤ c.toNat ∧ c.toNat ≤ 90
  · rw [if_pos hd, if_neg (by rw [charOfNat_toNat (by omega)]; omega)]
  · rw [if_neg hd, if_neg hd]

/-- Every character of the normalised string is fixed by lowercasing. -/
theorem lower_fixed_normalize {raw : Str} {c : Char}
    (h : c ∈ normalize raw) : rustToLower c = c := by
  rw [normalize_eq] at h
  have base : ∀ {d : Char}, d ∈ pad2 (opReplace (lowercase raw)) →
      rustToLower d = d := by
    intro d hd
    rcases mem_pad2 hd with rfl | rfl | rfl | hd2
    · decide
    · decide
    · decide
    · unfold opReplace at hd2
      rcases mem_replaceAll hd2 with hd3 | hd3
      · rcases mem_replaceAll hd3 with hd4 | hd4
        · rcases mem_replaceAll hd4 with hd5 | hd5
          · rcases mem_replaceAll hd5 with hd6 | hd6
            · rcases mem_replaceAll hd6 with hd7 | hd7
              · obtain ⟨e, he, rfl⟩ := List.mem_map.mp hd7
                exact rustToLower_idem e
              · simp only [List.mem_cons, List.not_mem_nil, or_false] at hd7
                rcases hd7 with rfl | rfl <;> decide
            · simp only [List.mem_cons, List.not_mem_nil, or_false] at hd6
              rcases hd6 with rfl | rfl <;> decide
          · simp only [List.mem_cons, List.not_mem_nil, or_false] at hd5
            rcases hd5 with rfl | rfl <;> decide
        · simp only [List.mem_cons, List.not_mem_nil, or_false] at hd4
          rcases hd4 with rfl | rfl <;> decide
      · simp only [List.mem_cons, List.not_mem_nil, or_false] at hd3
        rcases hd3 with rfl | rfl <;> decide
  by_cases hlw : leadsWith ['n', 'o', 't', ' ']
      (pad2 (opReplace (lowercase raw))) = true
  · rw [if_pos hlw] at h
    rcases List.mem_cons.mp h with rfl | h0
    · decide
    · exact base (List.mem_of_mem_drop h0)
  · rw [if_neg hlw] at h
    exact base h

/-- Characters of split pieces come from the split string. -/
theorem mem_splitSp {c : Char} :
    ∀ {z : Str} {p : Str}, p ∈ splitSp z → c ∈ p → c ∈ z := by
  intro z
  induction z with
  | nil =>
    intro p hp hc
    rw [show splitSp [] = [[]] from rfl] at hp
    rw [List.mem_singleton.mp hp] at hc
    exact absurd hc (by simp)
  | cons d rest ih =>
    intro p hp hc
    by_cases hd : d = ' '
    · subst hd
      rw [splitSp_cons_space] at hp
      rcases List.mem_cons.mp hp with rfl | hp2
      · exact absurd hc (by simp)
      · exact List.mem_cons_of_mem _ (ih hp2 hc)
    · rw [splitSp_cons_nospace _ hd] at hp
      obtain ⟨p0, ps, hps⟩ : ∃ p0 ps, splitSp rest = p0 :: ps := by
        cases hsp2 : splitSp rest with
        | nil => exact absurd hsp2 (splitSp_ne_nil _)
        | cons p0 ps => exact ⟨p0, ps, rfl⟩
      rw [hps] at hp
      simp only [List.modifyHead] at hp
      rcases List.mem_cons.mp hp with rfl | hp2
      · rcases List.mem_cons.mp hc with rfl | hc2
        · simp
        · exact List.mem_cons_of_mem _ (ih (by rw [hps]; simp) hc2)
      · exact List.mem_cons_of_mem _ (ih (by rw [hps]; simp [hp2]) hc)

/-- Characters of tokens come from the tokenised string. -/
theorem mem_tokensOf {z tok : Str} {c : Char} (htok : tok ∈ tokensOf z)
    (hc : c ∈ tok) : c ∈ z := by
  unfold tokensOf at htok
  obtain ⟨p, hp, rfl⟩ := List.mem_map.mp htok
  exact mem_splitSp hp (mem_trim hc)

/-- `push` preserves the accumulator invariant. -/
theorem push_stackOK {T : List Str} {st st2 : TokenStack} {e : Expr}
    (hok : StackOK T st) (he : Leafy T e) (h : st.push e = .ok st2) :
    StackOK T st2 := by
  unfold TokenStack.push at h
  by_cases h1 : st.expr.isNone
  · rw [if_pos h1] at h
    intro e2 he2
    obtain ⟨rfl⟩ := Except.ok.inj h
    simp only [] at he2
    rw [Option.some.injEq] at he2
    rw [← he2]
    exact he
  · rw [if_neg h1] at h
    by_cases h2 : st.op.isNone
    · rw [if_pos h2] at h
      exact absurd h (by simp)
    · rw [if_neg h2] at h
      obtain ⟨l, hl⟩ : ∃ l, st.expr = some l := by
        cases hx : st.expr with
        | none => rw [hx] at h1; simp at h1
        | some l => exact ⟨l, rfl⟩
      cases hop : st.op with
      | none => rw [hop] at h2; simp at h2
      | some op =>
        rw [hop] at h
        cases op with
        | And =>
          simp only [] at h
          obtain ⟨rfl⟩ := Except.ok.inj h
          intro e2 he2
          rw [Option.some.injEq] at he2
          rw [← he2, hl]
          exact .and (hok l hl) he
        | Or =>
          simp only [] at h
          obtain ⟨rfl⟩ := Except.ok.inj h
          intro e2 he2
          rw [Option.some.injEq] at he2
          rw [← he2, hl]
          exact .or (hok l hl) he

/-- `push_op` preserves the accumulator invariant. -/
theorem push_op_stackOK {T : List Str} {st st2 : TokenStack} {op : BoolOp}
    (hok : StackOK T st) (h : st.push_op op = .ok st2) : StackOK T st2 := by
  unfold TokenStack.push_op at h
  by_cases h1 : st.op.isSome
  · rw [if_pos h1] at h
    exact absurd h (by simp)
  · rw [if_neg h1] at h
    obtain ⟨rfl⟩ := Except.ok.inj h
    intro e he
    exact hok e he

/-- A successful `push_str` pushes a validated leaf. -/
theorem push_str_ok_shape {T : List Str} {st st2 : TokenStack} {tok : Str}
    (h : st.push_str tok T = .ok st2) :
    stripNeg tok ∈ T ∧
    (∀ c ∈ stripNeg tok, isRustAlphanumeric c = true ∨ c = '_') ∧
    (∀ c ∈ stripNeg tok, c ∈ tok) ∧
    ((isNegTok tok = false ∧ stripNeg tok = tok ∧
        st.push (.Terminal (stripNeg tok)) = .ok st2) ∨
      (isNegTok tok = true ∧
        st.push (.Not (.Terminal (stripNeg tok))) = .ok st2)) := by
  unfold TokenStack.push_str at h
  by_cases h1 : (stripNeg tok).any
      (fun c => !isRustAlphanumeric c && c ≠ '_') = true
  · rw [h1] at h
    exact absurd h (by simp)
  · rw [Bool.not_eq_true] at h1
    rw [h1] at h
    simp only [Bool.false_eq_true, if_false] at h
    by_cases h2 : stripNeg tok ∈ T
    · rw [if_neg (by simpa using h2)] at h
      refine ⟨h2, ?_, ?_, ?_⟩
      · intro c hc
        have := List.any_eq_false.mp h1 c hc
        simp only [Bool.and_eq_false_iff, Bool.not_eq_true,
          Bool.not_eq_false] at this
        rcases this with h3 | h3
        · exact .inl (by simpa using h3)
        · right
          simpa using h3
      · intro c hc
        cases tok with
        | nil => exact hc
        | cons d rest =>
          unfold stripNeg at hc
          simp only [] at hc
          by_cases hd : d = '!'
          · rw [if_pos hd] at hc
            exact List.mem_cons_of_mem _ hc
          · rw [if_neg hd] at hc
            exact hc
      · cases tok with
        | nil =>
          left
          exact ⟨rfl, rfl, by simpa using h⟩
        | cons d rest =>
          by_cases hd : d = '!'
          · right
            have hneg : isNegTok (d :: rest) = true := by
              simp [isNegTok, hd]
            rw [hneg] at h
            simp only [if_true] at h
            exact ⟨hneg, by simpa using h⟩
          · left
            have hneg : isNegTok (d :: rest) = false := by
              simp [isNegTok, hd]
            have hstr : stripNeg (d :: rest) = d :: rest := by
              simp [stripNeg, hd]
            rw [hneg] at h
            simp only [Bool.false_eq_true, if_false] at h
            exact ⟨hneg, hstr, h⟩
    · rw [if_pos (by simpa using h2)] at h
      exact absurd h (by simp)

/-- A successful `finish` returns exactly the pending expression. -/
theorem finish_ok {st : TokenStack} {e : Expr} (h : st.finish = .ok e) :
    st.expr = some e := by
  unfold TokenStack.finish at h
  cases hop : st.op with
  | some op => rw [hop] at h; exact absurd h (by simp)
  | none =>
    rw [hop] at h
    cases hex : st.expr with
    | none => rw [hex] at h; exact absurd h (by simp)
    | some e2 =>
      rw [hex] at h
      simp only [] at h
      exact congrArg some (Except.ok.inj h)

/-- The fresh accumulator satisfies the invariant. -/
theorem stackOK_default (T : List Str) : StackOK T TokenStack.default := by
  intro e he
  simp [TokenStack.default] at he

/-- The token loop preserves the accumulator invariant on every scope, given
that all tokens are lowercase-fixed. -/
theorem run_inv (raw : Str) (T : List Str) (m : Nat) :
    ∀ (toks : List Str) (top : TokenStack) (rest : List TokenStack)
      (top2 : TokenStack) (rest2 : List TokenStack),
      (∀ tok ∈ toks, ∀ c ∈ tok, rustToLower c = c) →
      StackOK T top → (∀ st ∈ rest, StackOK T st) →
      runTokens raw T m toks top rest = .ok (top2, rest2) →
      StackOK T top2 ∧ (∀ st ∈ rest2, StackOK T st) := by
  intro toks
  induction toks with
  | nil =>
    intro top rest top2 rest2 hlow htop hrest h
    rw [show runTokens raw T m [] top rest = .ok (top, rest) from rfl] at h
    obtain ⟨h1, h2⟩ := Prod.mk.injEq .. ▸ Except.ok.inj h
    rw [← h1, ← h2]
    exact ⟨htop, hrest⟩
  | cons tok toks ih =>
    intro top rest top2 rest2 hlow htop hrest h
    have hlow2 : ∀ tok ∈ toks, ∀ c ∈ tok, rustToLower c = c :=
      fun t ht => hlow t (List.mem_cons_of_mem _ ht)
    by_cases hover : rest.length + 1 > m
    · rw [run_over hover] at h
      exact absurd h (by simp)
    · by_cases he : tok = []
      · subst he
        rw [run_empty hover] at h
        exact ih top rest top2 rest2 hlow2 htop hrest h
      · by_cases ho : tok = ['(']
        · subst ho
          rw [run_open hover] at h
          exact ih TokenStack.default (top :: rest) top2 rest2 hlow2
            (stackOK_default T)
            (by intro st hst
                rcases List.mem_cons.mp hst with rfl | hst2
                · exact htop
                · exact hrest st hst2) h
        · by_cases hc : tok = [')']
          · subst hc
            cases rest with
            | nil =>
              rw [run_close_nil (by simpa using hover)] at h
              exact absurd h (by simp)
            | cons next others =>
              rw [run_close hover] at h
              cases hfin : top.finish with
              | error e => rw [hfin] at h; exact absurd h (by simp)
              | ok unwound =>
                rw [hfin] at h
                simp only [] at h
                cases hpu : next.push unwound with
                | error e => rw [hpu] at h; exact absurd h (by simp)
                | ok merged =>
                  rw [hpu] at h
                  simp only [] at h
                  have hnext : StackOK T next := hrest next (by simp)
                  have hothers : ∀ st ∈ others, StackOK T st :=
                    fun st hst => hrest st (List.mem_cons_of_mem _ hst)
                  have hunw : Leafy T unwound := htop unwound (finish_ok hfin)
                  exact ih merged others top2 rest2 hlow2
                    (push_stackOK hnext hunw hpu) hothers h
          · by_cases ha : tok = ['&']
            · subst ha
              rw [run_amp hover] at h
              cases hpo : top.push_op .And with
              | error e => rw [hpo] at h; exact absurd h (by simp)
              | ok top2x =>
                rw [hpo] at h
                simp only [] at h
                exact ih top2x rest top2 rest2 hlow2
                  (push_op_stackOK htop hpo) hrest h
            · by_cases hb : tok = ['|']
              · subst hb
                rw [run_bar hover] at h
                cases hpo : top.push_op .Or with
                | error e => rw [hpo] at h; exact absurd h (by simp)
                | ok top2x =>
                  rw [hpo] at h
                  simp only [] at h
                  exact ih top2x rest top2 rest2 hlow2
                    (push_op_stackOK htop hpo) hrest h
              · by_cases ht : tok = ['t', 'r', 'u', 'e']
                · subst ht
                  rw [run_true hover] at h
                  cases hpu : top.push (.Const true) with
                  | error e => rw [hpu] at h; exact absurd h (by simp)
                  | ok top2x =>
                    rw [hpu] at h
                    simp only [] at h
                    exact ih top2x rest top2 rest2 hlow2
                      (push_stackOK htop .const hpu) hrest h
                · by_cases hf : tok = ['f', 'a', 'l', 's', 'e']
                  · subst hf
                    rw [run_false hover] at h
                    cases hpu : top.push (.Const false) with
                    | error e => rw [hpu] at h; exact absurd h (by simp)
                    | ok top2x =>
                      rw [hpu] at h
                      simp only [] at h
                      exact ih top2x rest top2 rest2 hlow2
                        (push_stackOK htop .const hpu) hrest h
                  · rw [run_other hover he ho hc ha hb ht hf] at h
                    cases hps : top.push_str tok T with
                    | error e => rw [hps] at h; exact absurd h (by simp)
                    | ok top2x =>
                      rw [hps] at h
                      simp only [] at h
                      obtain ⟨hmem, halnum, hsub, hcases⟩ :=
                        push_str_ok_shape hps
                      have hclean : CleanStr (stripNeg tok) := by
                        intro c hcm
                        exact ⟨halnum c hcm,
                          hlow tok (by simp) c (hsub c hcm)⟩
                      have hleaf : Leafy T
                          (if isNegTok tok = true
                            then .Not (.Terminal (stripNeg tok))
                            else .Terminal (stripNeg tok)) := by
                        by_cases hneg : isNegTok tok = true
                        · rw [if_pos hneg]
                          exact .nterm hclean hmem
                        · rw [if_neg hneg]
                          rcases hcases with ⟨-, hid, -⟩ | ⟨hneg2, -⟩
                          · rw [hid]
                            exact .term he (hid ▸ hclean) (hid ▸ hmem) ht hf
                          · exact absurd hneg2 hneg
                      have hpush : top.push
                          (if isNegTok tok = true
                            then .Not (.Terminal (stripNeg tok))
                            else .Terminal (stripNeg tok)) = .ok top2x := by
                        rcases hcases with ⟨hneg, -, hp⟩ | ⟨hneg, hp⟩
                        · rw [if_neg (by rw [hneg]; simp)]
                          exact hp
                        · rw [if_pos hneg]
                          exact hp
                      exact ih top2x rest top2 rest2 hlow2
                        (push_stackOK htop hleaf hpush) hrest h

/-- A successful parse returns the simplification of a parser-shaped tree:
the result itself is parser-shaped and fully simplified. -/
theorem parse_ok_shape {raw : Str} {T : List Str} {m : Nat} {t : Expr}
    (h : parse_bool_expr_str_with_max_nesting raw T m = .ok t) :
    Leafy T t ∧ Simplified t = true := by
  rw [parse_eq] at h
  by_cases hbr : hasIllegalBrackets (normalize raw) = true
  · rw [if_pos hbr] at h
    exact absurd h (by simp)
  · rw [if_neg hbr] at h
    cases hrun : runTokens raw T m (tokensOf (normalize raw))
        TokenStack.default [] with
    | error e =>
      rw [hrun] at h
      exact absurd h (by simp)
    | ok pr =>
      rw [hrun] at h
      obtain ⟨topf, restf⟩ := pr
      simp only [] at h
      by_cases hd : restf.length + 1 > 1
      · rw [if_pos hd] at h
        exact absurd h (by simp)
      · rw [if_neg hd] at h
        cases hfin : topf.finish with
        | error e =>
          rw [hfin] at h
          exact absurd h (by simp)
        | ok e =>
          rw [hfin] at h
          simp only [] at h
          have hlow : ∀ tok ∈ tokensOf (normalize raw), ∀ c ∈ tok,
              rustToLower c = c :=
            fun tok htok c hcm =>
              lower_fixed_normalize (mem_tokensOf htok hcm)
          obtain ⟨htop, -⟩ := run_inv raw T m (tokensOf (normalize raw))
            TokenStack.default [] topf restf hlow (stackOK_default T)
            (by simp) hrun
          have hleafy : Leafy T e := htop e (finish_ok hfin)
          rw [← Except.ok.inj h]
          exact ⟨leafy_simplify hleafy, simplified_simplify e⟩

/-- Every string is a prefix of itself. -/
theorem leadsWith_refl : ∀ s : Str, leadsWith s s = true := by
  intro s
  induction s with
  | nil => rfl
  | cons c cs ih => simp [leadsWith, ih]

/-- Prefix test across an append: either the pattern already matches inside
the left part, or the left part is a prefix of the pattern and the remainder
of the pattern matches the right part. -/
theorem leadsWith_append_iff (pat u w : Str) :
    leadsWith pat (u ++ w) = true ↔
      (leadsWith pat u = true ∨
        (leadsWith u pat = true ∧
          leadsWith (pat.drop u.length) w = true)) := by
  induction u generalizing pat with
  | nil => cases pat <;> simp [leadsWith]
  | cons u0 u2 ih =>
    cases pat with
    | nil => simp [leadsWith]
    | cons p ps =>
      have hL : leadsWith (p :: ps) ((u0 :: u2) ++ w) =
          (decide (p = u0) && leadsWith ps (u2 ++ w)) := rfl
      have hR1 : leadsWith (p :: ps) (u0 :: u2) =
          (decide (p = u0) && leadsWith ps u2) := rfl
      have hR2 : leadsWith (u0 :: u2) (p :: ps) =
          (decide (u0 = p) && leadsWith u2 ps) := rfl
      have hR3 : (p :: ps).drop (u0 :: u2).length = ps.drop u2.length := by
        simp
      rw [hL, hR1, hR2, hR3]
      simp only [Bool.and_eq_true, decide_eq_true_eq, ih ps]
      constructor
      · rintro ⟨rfl, h | ⟨h1, h2⟩⟩
        · exact .inl ⟨rfl, h⟩
        · exact .inr ⟨⟨rfl, h1⟩, h2⟩
      · rintro (⟨rfl, h⟩ | ⟨⟨rfl, h1⟩, h2⟩)
        · exact ⟨rfl, .inl h⟩
        · exact ⟨rfl, .inr ⟨h1, h2⟩⟩

/-- A failed prefix test survives appending a string whose head is not a
pattern character. -/
theorem leadsWith_append_off {q u z : Str} (hu : leadsWith q u = false)
    (hz : ∀ d, z.head? = some d → d ∉ q) :
    leadsWith q (u ++ z) = false := by
  by_contra hcon
  rw [Bool.not_eq_false, leadsWith_append_iff] at hcon
  rcases hcon with h | ⟨h1, h2⟩
  · rw [hu] at h
    exact absurd h (by simp)
  · cases hqd : q.drop u.length with
    | nil =>
      rw [leadsWith_iff] at h1
      obtain ⟨b, hb⟩ := h1
      have hlen : q.length ≤ u.length := by
        have h3 := congrArg List.length hqd
        rw [List.length_drop] at h3
        simp only [List.length_nil] at h3
        omega
      have hb2 : b = [] := by
        have h4 := congrArg List.length hb
        simp only [List.length_append] at h4
        have h5 : b.length = 0 := by omega
        exact List.length_eq_zero.mp h5
      rw [hb2, List.append_nil] at hb
      rw [hb, leadsWith_refl] at hu
      exact absurd hu (by simp)
    | cons d ds =>
      rw [hqd] at h2
      cases z with
      | nil => exact absurd h2 (by simp [leadsWith])
      | cons z0 zs =>
        have hz0 : z0 ∉ q := hz z0 rfl
        rw [show leadsWith (d :: ds) (z0 :: zs) =
          (decide (d = z0) && leadsWith ds zs) from rfl] at h2
        simp only [Bool.and_eq_true, decide_eq_true_eq] at h2
        obtain ⟨rfl, -⟩ := h2
        exact hz0 (List.drop_subset _ _ (by rw [hqd]; simp))

/-- A space-headed pattern does not occur across a space-free segment. -/
theorem not_occurs_nospace {q A w : Str} (hA : ' ' ∉ A)
    (hw : ¬ occursIn (' ' :: q) w) : ¬ occursIn (' ' :: q) (A ++ w) := by
  induction A with
  | nil => simpa using hw
  | cons a A ih =>
    rw [List.cons_append]
    intro h
    rcases occursIn_cons.mp h with h0 | h0
    · have ha : a ≠ ' ' := fun heq => hA (by simp [heq])
      rw [show leadsWith (' ' :: q) (a :: (A ++ w)) =
        (decide (' ' = a) && leadsWith q (A ++ w)) from rfl] at h0
      simp only [Bool.and_eq_true, decide_eq_true_eq] at h0
      exact ha h0.1.symm
    · exact ih (fun hm => hA (by simp [hm])) h0

/-- A nonempty pattern does not occur in the empty string. -/
theorem not_occursIn_nil {pat : Str} (h : pat ≠ []) : ¬ occursIn pat [] := by
  rintro ⟨a, b, hab⟩
  rw [eq_comm, List.append_eq_nil, List.append_eq_nil] at hab
  exact h hab.1.2

/-- An occurrence inside a substring is an occurrence in the whole. -/
theorem occursIn_mid {pat s : Str} (x y : Str) (h : occursIn pat s) :
    occursIn pat (x ++ s ++ y) := by
  obtain ⟨a, b, rfl⟩ := h
  exact ⟨x ++ a, b ++ y, by simp⟩

/-- Terminal names of a parser-shaped tree are clean strings. -/
theorem names_clean {T : List Str} {t : Expr} (h : Leafy T t) :
    ∀ n ∈ namesOf t, CleanStr n := by
  induction h with
  | @term n hne hc hmem hnt hnf =>
    intro n2 hn
    rw [show namesOf (.Terminal n) = [n] from rfl, List.mem_singleton] at hn
    rw [hn]
    exact hc
  | @nterm n hc hmem =>
    intro n2 hn
    rw [show namesOf (.Not (.Terminal n)) = [n] from rfl,
      List.mem_singleton] at hn
    rw [hn]
    exact hc
  | @const b => intro n2 hn; exact absurd hn (by simp [namesOf])
  | @and a b ha hb iha ihb =>
    intro n2 hn
    rw [show namesOf (.And a b) = namesOf a ++ namesOf b from rfl,
      List.mem_append] at hn
    rcases hn with hn | hn
    · exact iha n2 hn
    · exact ihb n2 hn
  | @or a b ha hb iha ihb =>
    intro n2 hn
    rw [show namesOf (.Or a b) = namesOf a ++ namesOf b from rfl,
      List.mem_append] at hn
    rcases hn with hn | hn
    · exact iha n2 hn
    · exact ihb n2 hn

/-- Characters of the rendering of a parser-shaped tree: clean characters
and the six structural characters. -/
theorem fmt_chars {T : List Str} {t : Expr} (h : Leafy T t) :
    ∀ c ∈ fmtInner t, CleanChar c ∨ c = ' ' ∨ c = '(' ∨ c = ')' ∨
      c = '&' ∨ c = '|' ∨ c = '!' := by
  induction h with
  | @term n hne hc hmem hnt hnf =>
    intro c hcm
    exact .inl (hc c hcm)
  | @nterm n hc hmem =>
    intro c hcm
    rw [show fmtInner (.Not (.Terminal n)) = '!' :: n from rfl] at hcm
    rcases List.mem_cons.mp hcm with rfl | h2
    · exact .inr (.inr (.inr (.inr (.inr (.inr rfl)))))
    · exact .inl (hc c h2)
  | @const b =>
    intro c hcm
    cases b
    · left
      have h2 : c = 'f' ∨ c = 'a' ∨ c = 'l' ∨ c = 's' ∨ c = 'e' := by
        simpa [fmtInner] using hcm
      rcases h2 with rfl | rfl | rfl | rfl | rfl <;> exact ⟨.inl (by decide), by decide⟩
    · left
      have h2 : c = 't' ∨ c = 'r' ∨ c = 'u' ∨ c = 'e' := by
        simpa [fmtInner] using hcm
      rcases h2 with rfl | rfl | rfl | rfl <;> exact ⟨.inl (by decide), by decide⟩
  | @and a b ha hb iha ihb =>
    intro c hcm
    have h2 : c = '(' ∨ c ∈ fmtInner a ∨ c = ' ' ∨ c = '&' ∨ c = ' ' ∨
        c ∈ fmtInner b ∨ c = ')' := by
      simpa [fmtInner, List.mem_append, or_assoc] using hcm
    rcases h2 with rfl | h2 | rfl | rfl | rfl | h2 | rfl
    · exact .inr (.inr (.inl rfl))
    · exact iha c h2
    · exact .inr (.inl rfl)
    · exact .inr (.inr (.inr (.inr (.inl rfl))))
    · exact .inr (.inl rfl)
    · exact ihb c h2
    · exact .inr (.inr (.inr (.inl rfl)))
  | @or a b ha hb iha ihb =>
    intro c hcm
    have h2 : c = '(' ∨ c ∈ fmtInner a ∨ c = ' ' ∨ c = '|' ∨ c = ' ' ∨
        c ∈ fmtInner b ∨ c = ')' := by
      simpa [fmtInner, List.mem_append, or_assoc] using hcm
    rcases h2 with rfl | h2 | rfl | rfl | rfl | h2 | rfl
    · exact .inr (.inr (.inl rfl))
    · exact iha c h2
    · exact .inr (.inl rfl)
    · exact .inr (.inr (.inr (.inr (.inr (.inl rfl)))))
    · exact .inr (.inl rfl)
    · exact ihb c h2
    · exact .inr (.inr (.inr (.inl rfl)))

/-- Rendering characters are fixed by lowercasing. -/
theorem fmt_lower {T : List Str} {t : Expr} (h : Leafy T t) :
    ∀ c ∈ fmtInner t, rustToLower c = c := by
  intro c hcm
  rcases fmt_chars h c hcm with hc | rfl | rfl | rfl | rfl | rfl | rfl
  · exact hc.2
  all_goals decide

/-- Rendering characters are never illegal brackets. -/
theorem fmt_not_illegal {T : List Str} {t : Expr} (h : Leafy T t) :
    ∀ c ∈ fmtInner t,
      (c = '[' || c = ']' || c = Char.ofNat 0x7B || c = Char.ofNat 0x7D ||
        c = '<' || c = '>') = false := by
  intro c hcm
  rcases fmt_chars h c hcm with hc | rfl | rfl | rfl | rfl | rfl | rfl
  · exact cleanChar_not_illegal hc
  all_goals decide

/-- A pattern headed by `&` or `|` is never a prefix of a clean string. -/
theorem clean_not_leads_special {n : Str} (hc : CleanStr n) {d : Char}
    {qs : Str} (hd : d = '&' ∨ d = '|') : leadsWith (d :: qs) n = false := by
  cases n with
  | nil => rfl
  | cons c cs =>
    rw [show leadsWith (d :: qs) (c :: cs) =
      (decide (d = c) && leadsWith qs cs) from rfl]
    have h4 := cleanChar_not_special (hc c (by simp))
    have hdc : ¬ d = c := by
      rcases hd with rfl | rfl
      · exact fun h => h4.2.2.2.1 h.symm
      · exact fun h => h4.2.2.2.2.1 h.symm
    simp [hdc]

/-- The pattern `not ` is never a prefix of a clean string. -/
theorem clean_not_leads_notsp {n : Str} (hc : CleanStr n) :
    leadsWith ['n', 'o', 't', ' '] n = false := by
  by_contra h
  rw [Bool.not_eq_false, leadsWith_iff] at h
  obtain ⟨b, rfl⟩ := h
  exact (cleanChar_not_special (hc ' ' (by simp))).1 rfl

/-- After the second separator space, the rest of the rendering (right
operand, then a closing parenthesis) extends none of the normaliser's
patterns. -/
theorem fmt_head_off {T : List Str} {q : Str}
    (hhead : ∀ (d : Char) (X : Str),
      d = '!' ∨ d = 't' ∨ d = 'f' ∨ d = '(' → leadsWith q (d :: X) = false)
    (hrp : ')' ∉ q)
    {r : Expr} (hr : Leafy T r)
    (hname : ∀ n ∈ namesOf r, leadsWith q n = false) :
    ∀ w, leadsWith q (fmtInner r ++ ')' :: w) = false := by
  intro w
  cases hr with
  | @term n hne hc hmem hnt hnf =>
    show leadsWith q (n ++ ')' :: w) = false
    refine leadsWith_append_off (hname n (by simp [namesOf])) ?_
    intro d hd
    obtain rfl : ')' = d := Option.some.inj hd
    exact hrp
  | @nterm n hc hmem =>
    show leadsWith q ('!' :: (n ++ ')' :: w)) = false
    exact hhead '!' _ (.inl rfl)
  | @const b =>
    cases b
    · show leadsWith q ('f' :: (['a', 'l', 's', 'e'] ++ ')' :: w)) = false
      exact hhead 'f' _ (.inr (.inr (.inl rfl)))
    · show leadsWith q ('t' :: (['r', 'u', 'e'] ++ ')' :: w)) = false
      exact hhead 't' _ (.inr (.inl rfl))
  | @and a b ha hb =>
    show leadsWith q ('(' :: _) = false
    exact hhead '(' _ (.inr (.inr (.inr rfl)))
  | @or a b ha hb =>
    show leadsWith q ('(' :: _) = false
    exact hhead '(' _ (.inr (.inr (.inr rfl)))

/-- No space-headed normaliser pattern occurs in the rendering of a
parser-shaped tree (followed by a pattern-free tail), provided no terminal
name begins with the pattern's remainder. -/
theorem fmt_no_occ {T : List Str} {q : Str}
    (hamp : ∀ X, leadsWith q ('&' :: ' ' :: X) = false)
    (hbar : ∀ X, leadsWith q ('|' :: ' ' :: X) = false)
    (hhead : ∀ (d : Char) (X : Str),
      d = '!' ∨ d = 't' ∨ d = 'f' ∨ d = '(' → leadsWith q (d :: X) = false)
    (hrp : ')' ∉ q)
    {t : Expr} (ht : Leafy T t)
    (hname : ∀ n ∈ namesOf t, leadsWith q n = false) :
    ∀ w, ¬ occursIn (' ' :: q) w → ¬ occursIn (' ' :: q) (fmtInner t ++ w) := by
  induction ht with
  | @term n hne hc hmem hnt hnf =>
    intro w hw
    exact not_occurs_nospace
      (fun hm => (cleanChar_not_special (hc ' ' hm)).1 rfl) hw
  | @nterm n hc hmem =>
    intro w hw
    show ¬ occursIn (' ' :: q) (('!' :: n) ++ w)
    rw [List.cons_append]
    intro h
    rcases occursIn_cons.mp h with h0 | h0
    · rw [show leadsWith (' ' :: q) ('!' :: (n ++ w)) =
        (decide (' ' = '!') && leadsWith q (n ++ w)) from rfl] at h0
      simp at h0
    · exact not_occurs_nospace
        (fun hm => (cleanChar_not_special (hc ' ' hm)).1 rfl) hw h0
  | @const b =>
    intro w hw
    cases b
    · show ¬ occursIn (' ' :: q) (['f', 'a', 'l', 's', 'e'] ++ w)
      exact not_occurs_nospace (by decide) hw
    · show ¬ occursIn (' ' :: q) (['t', 'r', 'u', 'e'] ++ w)
      exact not_occurs_nospace (by decide) hw
  | @and a b ha hb iha ihb =>
    intro w hw
    have hna : ∀ n ∈ namesOf a, leadsWith q n = false :=
      fun n hn => hname n (by simp [namesOf, hn])
    have hnb : ∀ n ∈ namesOf b, leadsWith q n = false :=
      fun n hn => hname n (by simp [namesOf, hn])
    show ¬ occursIn (' ' :: q)
      (('(' :: (fmtInner a ++ [' ', '&', ' '] ++ fmtInner b ++ [')'])) ++ w)
    have hshape :
        ('(' :: (fmtInner a ++ [' ', '&', ' '] ++ fmtInner b ++ [')'])) ++ w =
          '(' :: (fmtInner a ++
            (' ' :: '&' :: ' ' :: (fmtInner b ++ ')' :: w))) := by
      simp
    rw [hshape]
    intro h
    rcases occursIn_cons.mp h with h0 | h0
    · simp [leadsWith] at h0
    · refine iha hna (' ' :: '&' :: ' ' :: (fmtInner b ++ ')' :: w)) ?_ h0
      intro h1
      rcases occursIn_cons.mp h1 with h2 | h1
      · rw [show leadsWith (' ' :: q)
            (' ' :: ('&' :: ' ' :: (fmtInner b ++ ')' :: w))) =
            (decide (' ' = ' ') &&
              leadsWith q ('&' :: ' ' :: (fmtInner b ++ ')' :: w)))
          from rfl, hamp] at h2
        simp at h2
      · rcases occursIn_cons.mp h1 with h2 | h1
        · simp [leadsWith] at h2
        · rcases occursIn_cons.mp h1 with h2 | h1
          · rw [show leadsWith (' ' :: q) (' ' :: (fmtInner b ++ ')' :: w)) =
                (decide (' ' = ' ') && leadsWith q (fmtInner b ++ ')' :: w))
              from rfl, fmt_head_off hhead hrp hb hnb w] at h2
            simp at h2
          · refine ihb hnb (')' :: w) ?_ h1
            intro h2
            rcases occursIn_cons.mp h2 with h3 | h3
            · simp [leadsWith] at h3
            · exact hw h3
  | @or a b ha hb iha ihb =>
    intro w hw
    have hna : ∀ n ∈ namesOf a, leadsWith q n = false :=
      fun n hn => hname n (by simp [namesOf, hn])
    have hnb : ∀ n ∈ namesOf b, leadsWith q n = false :=
      fun n hn => hname n (by simp [namesOf, hn])
    show ¬ occursIn (' ' :: q)
      (('(' :: (fmtInner a ++ [' ', '|', ' '] ++ fmtInner b ++ [')'])) ++ w)
    have hshape :
        ('(' :: (fmtInner a ++ [' ', '|', ' '] ++ fmtInner b ++ [')'])) ++ w =
          '(' :: (fmtInner a ++
            (' ' :: '|' :: ' ' :: (fmtInner b ++ ')' :: w))) := by
      simp
    rw [hshape]
    intro h
    rcases occursIn_cons.mp h with h0 | h0
    · simp [leadsWith] at h0
    · refine iha hna (' ' :: '|' :: ' ' :: (fmtInner b ++ ')' :: w)) ?_ h0
      intro h1
      rcases occursIn_cons.mp h1 with h2 | h1
      · rw [show leadsWith (' ' :: q)
            (' ' :: ('|' :: ' ' :: (fmtInner b ++ ')' :: w))) =
            (decide (' ' = ' ') &&
              leadsWith q ('|' :: ' ' :: (fmtInner b ++ ')' :: w)))
          from rfl, hbar] at h2
        simp at h2
      · rcases occursIn_cons.mp h1 with h2 | h1
        · simp [leadsWith] at h2
        · rcases occursIn_cons.mp h1 with h2 | h1
          · rw [show leadsWith (' ' :: q) (' ' :: (fmtInner b ++ ')' :: w)) =
                (decide (' ' = ' ') && leadsWith q (fmtInner b ++ ')' :: w))
              from rfl, fmt_head_off hhead hrp hb hnb w] at h2
            simp at h2
          · refine ihb hnb (')' :: w) ?_ h1
            intro h2
            rcases occursIn_cons.mp h2 with h3 | h3
            · simp [leadsWith] at h3
            · exact hw h3

/-- Padding distributes over appends. -/
theorem pad2_append (x y : Str) : pad2 (x ++ y) = pad2 x ++ pad2 y := by
  rw [pad2_flatMap, pad2_flatMap, pad2_flatMap, List.flatMap_append]

/-- Padding fixes a clean string. -/
theorem clean_pad2 {n : Str} (hc : CleanStr n) : pad2 n = n :=
  pad2_parenfree (fun c hcm =>
    ⟨(cleanChar_not_special (hc c hcm)).2.1,
      (cleanChar_not_special (hc c hcm)).2.2.1⟩)

/-- A clean string is space-free. -/
theorem clean_nospace {n : Str} (hc : CleanStr n) : ∀ c ∈ n, c ≠ ' ' :=
  fun c hcm => (cleanChar_not_special (hc c hcm)).1

/-- Pushing onto the fresh accumulator stores the expression. -/
theorem push_default (e : Expr) :
    TokenStack.default.push e = .ok ⟨some e, none⟩ := rfl

/-- Pushing an operator onto an accumulator with a pending expression and no
pending operator records the operator. -/
theorem push_op_pending (l : Expr) (op : BoolOp) :
    (⟨some l, none⟩ : TokenStack).push_op op = .ok ⟨some l, some op⟩ := rfl

/-- Pushing a right operand combines with a pending And. -/
theorem push_pending_and (l r : Expr) :
    (⟨some l, some .And⟩ : TokenStack).push r =
      .ok ⟨some (.And l r), none⟩ := rfl

/-- Pushing a right operand combines with a pending Or. -/
theorem push_pending_or (l r : Expr) :
    (⟨some l, some .Or⟩ : TokenStack).push r =
      .ok ⟨some (.Or l r), none⟩ := rfl

/-- Finishing an accumulator with only a pending expression returns it. -/
theorem finish_pending (e : Expr) :
    (⟨some e, none⟩ : TokenStack).finish = .ok e := rfl

/-- A `!`-prefixed clean, allowed token goes through `push_str` as a negated
terminal. -/
theorem push_str_neg (st : TokenStack) {n : Str} {T : List Str}
    (hc : CleanStr n) (hmem : n ∈ T) :
    st.push_str ('!' :: n) T = st.push (.Not (.Terminal n)) := by
  have hstrip : stripNeg ('!' :: n) = n := by simp [stripNeg]
  have hneg : isNegTok ('!' :: n) = true := by simp [isNegTok]
  have hval : n.any (fun c => !isRustAlphanumeric c && c ≠ '_') = false := by
    rw [List.any_eq_false]
    intro c hcx
    obtain ⟨ha | rfl, -⟩ := hc c hcx
    · simp [ha]
    · simp
  unfold TokenStack.push_str
  rw [hstrip, hval]
  simp only [Bool.false_eq_true, if_false]
  rw [if_neg (by simpa using hmem), hneg]
  simp

/-- Tokens of the rendering hold no whitespace. -/
theorem mem_fmtToks_nows {T : List Str} {t : Expr} (ht : Leafy T t) :
    ∀ tok ∈ fmtToks t, ∀ c ∈ tok, rustIsWhitespace c = false := by
  induction ht with
  | @term n hne hc hmem hnt hnf =>
    intro tok htok c hcm
    rw [show fmtToks (.Terminal n) = [n] from rfl, List.mem_singleton] at htok
    subst htok
    exact cleanChar_not_ws (hc c hcm)
  | @nterm n hc hmem =>
    intro tok htok c hcm
    rw [show fmtToks (.Not (.Terminal n)) = ['!' :: n] from rfl,
      List.mem_singleton] at htok
    subst htok
    rcases List.mem_cons.mp hcm with rfl | h2
    · decide
    · exact cleanChar_not_ws (hc c h2)
  | @const b =>
    intro tok htok c hcm
    cases b
    · have h3 : tok = ['f', 'a', 'l', 's', 'e'] := by
        simpa [fmtToks] using htok
      subst h3
      exact (by decide :
        ∀ c2 ∈ ['f', 'a', 'l', 's', 'e'], rustIsWhitespace c2 = false) c hcm
    · have h3 : tok = ['t', 'r', 'u', 'e'] := by
        simpa [fmtToks] using htok
      subst h3
      exact (by decide :
        ∀ c2 ∈ ['t', 'r', 'u', 'e'], rustIsWhitespace c2 = false) c hcm
  | @and a b ha hb iha ihb =>
    intro tok htok c hcm
    have h2 : tok = [] ∨ tok = ['('] ∨ tok ∈ fmtToks a ∨ tok = ['&'] ∨
        tok ∈ fmtToks b ∨ tok = [')'] ∨ tok = [] := by
      simpa [fmtToks, List.mem_append, or_assoc] using htok
    rcases h2 with rfl | rfl | h2 | rfl | h2 | rfl | rfl
    · exact absurd hcm (by simp)
    · exact (by decide : ∀ c2 ∈ ['('], rustIsWhitespace c2 = false) c hcm
    · exact iha tok h2 c hcm
    · exact (by decide : ∀ c2 ∈ ['&'], rustIsWhitespace c2 = false) c hcm
    · exact ihb tok h2 c hcm
    · exact (by decide : ∀ c2 ∈ [')'], rustIsWhitespace c2 = false) c hcm
    · exact absurd hcm (by simp)
  | @or a b ha hb iha ihb =>
    intro tok htok c hcm
    have h2 : tok = [] ∨ tok = ['('] ∨ tok ∈ fmtToks a ∨ tok = ['|'] ∨
        tok ∈ fmtToks b ∨ tok = [')'] ∨ tok = [] := by
      simpa [fmtToks, List.mem_append, or_assoc] using htok
    rcases h2 with rfl | rfl | h2 | rfl | h2 | rfl | rfl
    · exact absurd hcm (by simp)
    · exact (by decide : ∀ c2 ∈ ['('], rustIsWhitespace c2 = false) c hcm
    · exact iha tok h2 c hcm
    · exact (by decide : ∀ c2 ∈ ['|'], rustIsWhitespace c2 = false) c hcm
    · exact ihb tok h2 c hcm
    · exact (by decide : ∀ c2 ∈ [')'], rustIsWhitespace c2 = false) c hcm
    · exact absurd hcm (by simp)

/-- Trimming fixes every rendering token. -/
theorem trim_fmtToks {T : List Str} {t : Expr} (ht : Leafy T t) :
    (fmtToks t).map trim = fmtToks t := by
  have h := mem_fmtToks_nows ht
  calc (fmtToks t).map trim = (fmtToks t).map id :=
        List.map_congr_left (fun tok htok => trim_nows (h tok htok))
    _ = fmtToks t := List.map_id _

/-- Splitting the padded rendering produces exactly the rendering tokens,
both standalone and before a space and further input. -/
theorem split_pad_fmt {T : List Str} {t : Expr} (ht : Leafy T t) :
    (∀ z, splitSp (pad2 (fmtInner t) ++ ' ' :: z) = fmtToks t ++ splitSp z) ∧
    splitSp (pad2 (fmtInner t)) = fmtToks t := by
  induction ht with
  | @term n hne hc hmem hnt hnf =>
    constructor
    · intro z
      show splitSp (pad2 n ++ ' ' :: z) = [n] ++ splitSp z
      rw [clean_pad2 hc, splitSp_append_space, splitSp_nospace (clean_nospace hc)]
    · show splitSp (pad2 n) = [n]
      rw [clean_pad2 hc, splitSp_nospace (clean_nospace hc)]
  | @nterm n hc hmem =>
    have hnos : ∀ c ∈ '!' :: n, c ≠ ' ' := by
      intro c hcm
      rcases List.mem_cons.mp hcm with rfl | h2
      · decide
      · exact clean_nospace hc c h2
    have hpad : pad2 ('!' :: n) = '!' :: n := by
      refine pad2_parenfree ?_
      intro c hcm
      rcases List.mem_cons.mp hcm with rfl | h2
      · decide
      · exact ⟨(cleanChar_not_special (hc c h2)).2.1,
          (cleanChar_not_special (hc c h2)).2.2.1⟩
    constructor
    · intro z
      show splitSp (pad2 ('!' :: n) ++ ' ' :: z) = ['!' :: n] ++ splitSp z
      rw [hpad, splitSp_append_space, splitSp_nospace hnos]
    · show splitSp (pad2 ('!' :: n)) = ['!' :: n]
      rw [hpad, splitSp_nospace hnos]
  | @const b =>
    cases b
    · constructor
      · intro z
        show splitSp (pad2 ['f', 'a', 'l', 's', 'e'] ++ ' ' :: z) =
          [['f', 'a', 'l', 's', 'e']] ++ splitSp z
        rw [show pad2 ['f', 'a', 'l', 's', 'e'] = ['f', 'a', 'l', 's', 'e']
          from rfl, splitSp_append_space, splitSp_nospace (by decide)]
      · decide
    · constructor
      · intro z
        show splitSp (pad2 ['t', 'r', 'u', 'e'] ++ ' ' :: z) =
          [['t', 'r', 'u', 'e']] ++ splitSp z
        rw [show pad2 ['t', 'r', 'u', 'e'] = ['t', 'r', 'u', 'e'] from rfl,
          splitSp_append_space, splitSp_nospace (by decide)]
      · decide
  | @and a b ha hb iha ihb =>
    have hform : ∀ z2 : Str, pad2 (fmtInner (.And a b)) ++ z2 =
        ' ' :: '(' :: ' ' :: (pad2 (fmtInner a) ++ ' ' :: ('&' :: ' ' ::
          (pad2 (fmtInner b) ++ ' ' :: (')' :: ' ' :: z2)))) := by
      intro z2
      rw [show fmtInner (.And a b) =
        '(' :: (fmtInner a ++ [' ', '&', ' '] ++ fmtInner b ++ [')'])
        from rfl, pad2_cons, pad2_append, pad2_append, pad2_append,
        show padChar '(' = [' ', '(', ' '] from rfl,
        show pad2 [' ', '&', ' '] = [' ', '&', ' '] from rfl,
        show pad2 [')'] = [' ', ')', ' '] from rfl]
      simp
    constructor
    · intro z
      rw [hform (' ' :: z), splitSp_cons_space,
        splitSp_cons_nospace _ (by decide), splitSp_cons_space, iha.1,
        splitSp_cons_nospace _ (by decide), splitSp_cons_space, ihb.1,
        splitSp_cons_nospace _ (by decide), splitSp_cons_space,
        splitSp_cons_space]
      simp [fmtToks, List.modifyHead]
    · rw [show pad2 (fmtInner (.And a b)) =
          pad2 (fmtInner (.And a b)) ++ [] by simp, hform [],
        splitSp_cons_space, splitSp_cons_nospace _ (by decide),
        splitSp_cons_space, iha.1, splitSp_cons_nospace _ (by decide),
        splitSp_cons_space, ihb.1, splitSp_cons_nospace _ (by decide),
        splitSp_cons_space]
      simp [fmtToks, List.modifyHead, splitSp]
  | @or a b ha hb iha ihb =>
    have hform : ∀ z2 : Str, pad2 (fmtInner (.Or a b)) ++ z2 =
        ' ' :: '(' :: ' ' :: (pad2 (fmtInner a) ++ ' ' :: ('|' :: ' ' ::
          (pad2 (fmtInner b) ++ ' ' :: (')' :: ' ' :: z2)))) := by
      intro z2
      rw [show fmtInner (.Or a b) =
        '(' :: (fmtInner a ++ [' ', '|', ' '] ++ fmtInner b ++ [')'])
        from rfl, pad2_cons, pad2_append, pad2_append, pad2_append,
        show padChar '(' = [' ', '(', ' '] from rfl,
        show pad2 [' ', '|', ' '] = [' ', '|', ' '] from rfl,
        show pad2 [')'] = [' ', ')', ' '] from rfl]
      simp
    constructor
    · intro z
      rw [hform (' ' :: z), splitSp_cons_space,
        splitSp_cons_nospace _ (by decide), splitSp_cons_space, iha.1,
        splitSp_cons_nospace _ (by decide), splitSp_cons_space, ihb.1,
        splitSp_cons_nospace _ (by decide), splitSp_cons_space,
        splitSp_cons_space]
      simp [fmtToks, List.modifyHead]
    · rw [show pad2 (fmtInner (.Or a b)) =
          pad2 (fmtInner (.Or a b)) ++ [] by simp, hform [],
        splitSp_cons_space, splitSp_cons_nospace _ (by decide),
        splitSp_cons_space, iha.1, splitSp_cons_nospace _ (by decide),
        splitSp_cons_space, ihb.1, splitSp_cons_nospace _ (by decide),
        splitSp_cons_space]
      simp [fmtToks, List.modifyHead, splitSp]

/-- Running the rendering tokens of a parser-shaped tree pushes exactly that
tree, provided the nesting bound leaves room for its binary depth. -/
theorem run_fmtToks (raw : Str) (T : List Str) (m : Nat)
    {t : Expr} (ht : Leafy T t) :
    ∀ (toks2 : List Str) (top : TokenStack) (rest : List TokenStack),
      rest.length + 1 + bDepth t ≤ m →
      runTokens raw T m (fmtToks t ++ toks2) top rest =
        match top.push t with
        | .error e => .error e
        | .ok top2 => runTokens raw T m toks2 top2 rest := by
  induction ht with
  | @term n hne hc hmem hnt hnf =>
    intro toks2 top rest hbound
    rw [show bDepth (.Terminal n) = 0 from rfl] at hbound
    have hover : ¬ rest.length + 1 > m := by omega
    show runTokens raw T m (n :: toks2) top rest = _
    rw [run_other hover hne
      (fun heq => (cleanChar_not_special (hc '(' (by rw [heq]; simp))).2.1 rfl)
      (fun heq =>
        (cleanChar_not_special (hc ')' (by rw [heq]; simp))).2.2.1 rfl)
      (fun heq =>
        (cleanChar_not_special (hc '&' (by rw [heq]; simp))).2.2.2.1 rfl)
      (fun heq =>
        (cleanChar_not_special (hc '|' (by rw [heq]; simp))).2.2.2.2.1 rfl)
      hnt hnf, push_str_clean top hc hmem]
  | @nterm n hc hmem =>
    intro toks2 top rest hbound
    rw [show bDepth (.Not (.Terminal n)) = 0 from rfl] at hbound
    have hover : ¬ rest.length + 1 > m := by omega
    show runTokens raw T m (('!' :: n) :: toks2) top rest = _
    rw [run_other hover (by simp)
      (fun h => absurd (List.cons.inj h).1 (by decide))
      (fun h => absurd (List.cons.inj h).1 (by decide))
      (fun h => absurd (List.cons.inj h).1 (by decide))
      (fun h => absurd (List.cons.inj h).1 (by decide))
      (fun h => absurd (List.cons.inj h).1 (by decide))
      (fun h => absurd (List.cons.inj h).1 (by decide)),
      push_str_neg top hc hmem]
  | @const b =>
    intro toks2 top rest hbound
    rw [show bDepth (.Const b) = 0 from rfl] at hbound
    have hover : ¬ rest.length + 1 > m := by omega
    cases b
    · show runTokens raw T m (['f', 'a', 'l', 's', 'e'] :: toks2) top rest = _
      rw [run_false hover]
    · show runTokens raw T m (['t', 'r', 'u', 'e'] :: toks2) top rest = _
      rw [run_true hover]
  | @and a b ha hb iha ihb =>
    intro toks2 top rest hbound
    rw [show bDepth (.And a b) = max (bDepth a) (bDepth b) + 1 from rfl]
      at hbound
    have hover0 : ¬ rest.length + 1 > m := by omega
    have hover1 : ¬ (top :: rest).length + 1 > m := by simp; omega
    have hsh : fmtToks (.And a b) ++ toks2 =
        [] :: ['('] :: (fmtToks a ++
          ['&'] :: (fmtToks b ++ [')'] :: [] :: toks2)) := by
      simp [fmtToks]
    rw [hsh, run_empty hover0, run_open hover0,
      iha (['&'] :: (fmtToks b ++ [')'] :: [] :: toks2)) TokenStack.default
        (top :: rest) (by simp; omega),
      push_default]
    simp only []
    rw [run_amp hover1, push_op_pending]
    simp only []
    rw [ihb ([')'] :: [] :: toks2) ⟨some a, some .And⟩ (top :: rest)
        (by simp; omega),
      push_pending_and]
    simp only []
    rw [run_close hover1, finish_pending]
    simp only []
    cases hp : top.push (.And a b) with
    | error e => rfl
    | ok merged =>
      simp only []
      rw [run_empty hover0]
  | @or a b ha hb iha ihb =>
    intro toks2 top rest hbound
    rw [show bDepth (.Or a b) = max (bDepth a) (bDepth b) + 1 from rfl]
      at hbound
    have hover0 : ¬ rest.length + 1 > m := by omega
    have hover1 : ¬ (top :: rest).length + 1 > m := by simp; omega
    have hsh : fmtToks (.Or a b) ++ toks2 =
        [] :: ['('] :: (fmtToks a ++
          ['|'] :: (fmtToks b ++ [')'] :: [] :: toks2)) := by
      simp [fmtToks]
    rw [hsh, run_empty hover0, run_open hover0,
      iha (['|'] :: (fmtToks b ++ [')'] :: [] :: toks2)) TokenStack.default
        (top :: rest) (by simp; omega),
      push_default]
    simp only []
    rw [run_bar hover1, push_op_pending]
    simp only []
    rw [ihb ([')'] :: [] :: toks2) ⟨some a, some .Or⟩ (top :: rest)
        (by simp; omega),
      push_pending_or]
    simp only []
    rw [run_close hover1, finish_pending]
    simp only []
    cases hp : top.push (.Or a b) with
    | error e => rfl
    | ok merged =>
      simp only []
      rw [run_empty hover0]

/-- A prefix test fails on a first-character mismatch. -/
theorem leadsWith_head_ne {p c : Char} {ps : Str} (h : ¬ p = c) (s : Str) :
    leadsWith (p :: ps) (c :: s) = false := by
  rw [show leadsWith (p :: ps) (c :: s) =
    (decide (p = c) && leadsWith ps s) from rfl]
  simp [h]

/-- A prefix test fails on a second-character mismatch. -/
theorem leadsWith_two {p1 p2 c1 c2 : Char} {ps : Str} (h : ¬ p2 = c2)
    (s : Str) : leadsWith (p1 :: p2 :: ps) (c1 :: c2 :: s) = false := by
  rw [show leadsWith (p1 :: p2 :: ps) (c1 :: c2 :: s) =
    (decide (p1 = c1) && (decide (p2 = c2) && leadsWith ps s)) from rfl]
  simp [h]

/-- The pattern ` and` does not occur in the rendering of a safe tree. -/
theorem fmt_no_and {T : List Str} {t : Expr} (ht : Leafy T t)
    (hsafe : SafeNames t) : ¬ occursIn [' ', 'a', 'n', 'd'] (fmtInner t) := by
  have h := fmt_no_occ (q := ['a', 'n', 'd'])
    (fun X => leadsWith_head_ne (by decide) _)
    (fun X => leadsWith_head_ne (by decide) _)
    (fun d X hd => by
      rcases hd with rfl | rfl | rfl | rfl <;>
        exact leadsWith_head_ne (by decide) _)
    (by decide)
    ht (fun n hn => (hsafe n hn).1) [] (not_occursIn_nil (by decide))
  simpa using h

/-- The pattern ` or` does not occur in the rendering of a safe tree. -/
theorem fmt_no_or {T : List Str} {t : Expr} (ht : Leafy T t)
    (hsafe : SafeNames t) : ¬ occursIn [' ', 'o', 'r'] (fmtInner t) := by
  have h := fmt_no_occ (q := ['o', 'r'])
    (fun X => leadsWith_head_ne (by decide) _)
    (fun X => leadsWith_head_ne (by decide) _)
    (fun d X hd => by
      rcases hd with rfl | rfl | rfl | rfl <;>
        exact leadsWith_head_ne (by decide) _)
    (by decide)
    ht (fun n hn => (hsafe n hn).2.1) [] (not_occursIn_nil (by decide))
  simpa using h

/-- The pattern ` &&` does not occur in the rendering. -/
theorem fmt_no_amp2 {T : List Str} {t : Expr} (ht : Leafy T t) :
    ¬ occursIn [' ', '&', '&'] (fmtInner t) := by
  have h := fmt_no_occ (q := ['&', '&'])
    (fun X => leadsWith_two (by decide) _)
    (fun X => leadsWith_head_ne (by decide) _)
    (fun d X hd => by
      rcases hd with rfl | rfl | rfl | rfl <;>
        exact leadsWith_head_ne (by decide) _)
    (by decide)
    ht (fun n hn => clean_not_leads_special (names_clean ht n hn) (.inl rfl))
    [] (not_occursIn_nil (by decide))
  simpa using h

/-- The pattern ` ||` does not occur in the rendering. -/
theorem fmt_no_bar2 {T : List Str} {t : Expr} (ht : Leafy T t) :
    ¬ occursIn [' ', '|', '|'] (fmtInner t) := by
  have h := fmt_no_occ (q := ['|', '|'])
    (fun X => leadsWith_head_ne (by decide) _)
    (fun X => leadsWith_two (by decide) _)
    (fun d X hd => by
      rcases hd with rfl | rfl | rfl | rfl <;>
        exact leadsWith_head_ne (by decide) _)
    (by decide)
    ht (fun n hn => clean_not_leads_special (names_clean ht n hn) (.inr rfl))
    [] (not_occursIn_nil (by decide))
  simpa using h

/-- The pattern ` not ` does not occur in the rendering. -/
theorem fmt_no_notsp {T : List Str} {t : Expr} (ht : Leafy T t) :
    ¬ occursIn [' ', 'n', 'o', 't', ' '] (fmtInner t) := by
  have h := fmt_no_occ (q := ['n', 'o', 't', ' '])
    (fun X => leadsWith_head_ne (by decide) _)
    (fun X => leadsWith_head_ne (by decide) _)
    (fun d X hd => by
      rcases hd with rfl | rfl | rfl | rfl <;>
        exact leadsWith_head_ne (by decide) _)
    (by decide)
    ht (fun n hn => clean_not_leads_notsp (names_clean ht n hn)) []
    (not_occursIn_nil (by decide))
  simpa using h

/-- The normalisation chain reduces to padding when lowercasing and the
operator replacements fix the string and the leading-`not` test fails. -/
theorem normalize_via_pad {out : Str}
    (hlow : lowercase out = out)
    (hop : opReplace out = out)
    (hnot : leadsWith ['n', 'o', 't', ' '] (pad2 out) = false) :
    normalize out = pad2 out := by
  rw [normalize_eq, hlow, hop, if_neg (by rw [hnot]; simp)]

/-- A successful run over the normalised tokens yields a successful parse. -/
theorem parse_of_run {out : Str} {T : List Str} {t : Expr}
    (hnorm : normalize out = pad2 out)
    (hbr : hasIllegalBrackets (pad2 out) = false)
    (hrun : runTokens out T 100 (tokensOf (pad2 out)) TokenStack.default []
      = .ok (⟨some t, none⟩, [])) :
    parse_bool_expr_str out T = .ok (simplify_via_laws t) := by
  show parse_bool_expr_str_with_max_nesting out T 100 = _
  rw [parse_eq, hnorm, if_neg (by rw [hbr]; simp), hrun]
  simp only []
  rw [if_neg (by simp), finish_pending]

/-- Normalisation and the illegal-bracket scan behave on any substring of
the rendering of a safe tree. -/
theorem reparse_ready {T : List Str} {t : Expr} (ht : Leafy T t)
    (hsafe : SafeNames t) {out : Str}
    (hsub : ∀ c ∈ out, c ∈ fmtInner t)
    (hocc : ∀ pat : Str, occursIn pat out → occursIn pat (fmtInner t))
    (hnot : leadsWith ['n', 'o', 't', ' '] (pad2 out) = false) :
    normalize out = pad2 out ∧ hasIllegalBrackets (pad2 out) = false := by
  constructor
  · apply normalize_via_pad
    · exact lowercase_fixed (fun c hc => fmt_lower ht c (hsub c hc))
    · exact opReplace_id
        (fun h => fmt_no_and ht hsafe (hocc _ h))
        (fun h => fmt_no_amp2 ht (hocc _ h))
        (fun h => fmt_no_or ht hsafe (hocc _ h))
        (fun h => fmt_no_bar2 ht (hocc _ h))
        (fun h => fmt_no_notsp ht (hocc _ h))
    · exact hnot
  · unfold hasIllegalBrackets
    rw [List.any_eq_false]
    intro c hc
    rcases mem_pad2 hc with rfl | rfl | rfl | hc2
    · decide
    · decide
    · decide
    · rw [fmt_not_illegal ht c (hsub c hc2)]
      simp

/-- Padding fixes a bang-prefixed clean string. -/
theorem pad2_bang {n : Str} (hc : CleanStr n) : pad2 ('!' :: n) = '!' :: n := by
  refine pad2_parenfree ?_
  intro c hcm
  rcases List.mem_cons.mp hcm with rfl | h2
  · decide
  · exact ⟨(cleanChar_not_special (hc c h2)).2.1,
      (cleanChar_not_special (hc c h2)).2.2.1⟩

/-- The padded rendering of a tree whose names avoid `not`, followed by a
space, never begins with `not `. -/
theorem pad2_fmt_not_lead {T : List Str} {a : Expr} (ha : Leafy T a)
    (hnn : ∀ n ∈ namesOf a, n ≠ ['n', 'o', 't']) :
    ∀ w, leadsWith ['n', 'o', 't', ' ']
      (pad2 (fmtInner a) ++ ' ' :: w) = false := by
  intro w
  cases ha with
  | @term u hne hc hmem hnt hnf =>
    rw [show fmtInner (.Terminal u) = u from rfl, clean_pad2 hc]
    exact not_leadsWith_notsp w hc (hnn u (by simp [namesOf]))
  | @nterm u hc hmem =>
    rw [show fmtInner (.Not (.Terminal u)) = '!' :: u from rfl, pad2_bang hc]
    rw [show ('!' :: u) ++ ' ' :: w = '!' :: (u ++ ' ' :: w) from rfl]
    exact leadsWith_head_ne (by decide) _
  | @const bb =>
    cases bb
    · rw [show fmtInner (.Const false) = ['f', 'a', 'l', 's', 'e'] from rfl,
        show pad2 ['f', 'a', 'l', 's', 'e'] = ['f', 'a', 'l', 's', 'e']
          from rfl,
        show ['f', 'a', 'l', 's', 'e'] ++ ' ' :: w =
          'f' :: (['a', 'l', 's', 'e'] ++ ' ' :: w) from rfl]
      exact leadsWith_head_ne (by decide) _
    · rw [show fmtInner (.Const true) = ['t', 'r', 'u', 'e'] from rfl,
        show pad2 ['t', 'r', 'u', 'e'] = ['t', 'r', 'u', 'e'] from rfl,
        show ['t', 'r', 'u', 'e'] ++ ' ' :: w =
          't' :: (['r', 'u', 'e'] ++ ' ' :: w) from rfl]
      exact leadsWith_head_ne (by decide) _
  | @and x y hx hy =>
    rw [show fmtInner (.And x y) =
      '(' :: (fmtInner x ++ [' ', '&', ' '] ++ fmtInner y ++ [')'])
      from rfl, pad2_cons, show padChar '(' = [' ', '(', ' '] from rfl]
    rw [show ([' ', '(', ' '] ++
        pad2 (fmtInner x ++ [' ', '&', ' '] ++ fmtInner y ++ [')'])) ++
        ' ' :: w =
      ' ' :: (([ '(', ' '] ++
        pad2 (fmtInner x ++ [' ', '&', ' '] ++ fmtInner y ++ [')'])) ++
        ' ' :: w) by simp]
    exact leadsWith_head_ne (by decide) _
  | @or x y hx hy =>
    rw [show fmtInner (.Or x y) =
      '(' :: (fmtInner x ++ [' ', '|', ' '] ++ fmtInner y ++ [')'])
      from rfl, pad2_cons, show padChar '(' = [' ', '(', ' '] from rfl]
    rw [show ([' ', '(', ' '] ++
        pad2 (fmtInner x ++ [' ', '|', ' '] ++ fmtInner y ++ [')'])) ++
        ' ' :: w =
      ' ' :: (([ '(', ' '] ++
        pad2 (fmtInner x ++ [' ', '|', ' '] ++ fmtInner y ++ [')'])) ++
        ' ' :: w) by simp]
    exact leadsWith_head_ne (by decide) _

/-- Re-parsing the full rendering of a safe, sufficiently shallow tree
recovers the tree up to simplification. -/
theorem parse_fmtInner {T : List Str} {t : Expr} (ht : Leafy T t)
    (hsafe : SafeNames t)
    (hnot : leadsWith ['n', 'o', 't', ' '] (pad2 (fmtInner t)) = false)
    (hdepth : bDepth t ≤ 99) :
    parse_bool_expr_str (fmtInner t) T = .ok (simplify_via_laws t) := by
  obtain ⟨hnorm, hbr⟩ := reparse_ready ht hsafe (fun c h => h)
    (fun pat h => h) hnot
  have htoks : tokensOf (pad2 (fmtInner t)) = fmtToks t := by
    unfold tokensOf
    rw [(split_pad_fmt ht).2, trim_fmtToks ht]
  refine parse_of_run hnorm hbr ?_
  rw [htoks, show fmtToks t = fmtToks t ++ [] by simp,
    run_fmtToks (fmtInner t) T 100 ht [] TokenStack.default []
      (by simp; omega),
    push_default]
  rfl

/-- Formatting a parser-shaped, simplified, safely named tree of binary
depth at most 100 succeeds, and re-parsing the output recovers the tree. -/
theorem format_roundtrip {T : List Str} {t : Expr} (ht : Leafy T t)
    (hsimp : Simplified t = true) (hsafe : SafeNames t)
    (hdepth : bDepth t ≤ 100) :
    ∃ out, format_bool_expr t = some out ∧
      parse_bool_expr_str out T = .ok t := by
  have hsv : simplify_via_laws t = t := simplify_of_simplified hsimp
  cases ht with
  | @term n hne hc hmem hnt hnf =>
    have ht2 : Leafy T (.Terminal n) := .term hne hc hmem hnt hnf
    have hfmt : format_bool_expr (.Terminal n) = some n := by
      simp only [format_bool_expr]
      rw [show simplify_via_laws (.Terminal n) = .Terminal n from rfl,
        show fmtInner (.Terminal n) = n from rfl]
      cases n with
      | nil => exact absurd rfl hne
      | cons c0 cs =>
        have hng : ¬ (c0 :: cs).head? = some '(' := by
          intro hcon
          exact (cleanChar_not_special (hc c0 (by simp))).2.1
            (Option.some.inj hcon)
        rw [if_neg hng]
    have hnot : leadsWith ['n', 'o', 't', ' ']
        (pad2 (fmtInner (.Terminal n))) = false := by
      rw [show fmtInner (.Terminal n) = n from rfl, clean_pad2 hc]
      exact clean_not_leads_notsp hc
    have hdep : bDepth (.Terminal n) ≤ 99 := by
      rw [show bDepth (.Terminal n) = 0 from rfl]
      omega
    have hp := parse_fmtInner ht2 hsafe hnot hdep
    rw [hsv] at hp
    exact ⟨n, hfmt, hp⟩
  | @nterm n hc hmem =>
    have ht2 : Leafy T (.Not (.Terminal n)) := .nterm hc hmem
    have hfmt : format_bool_expr (.Not (.Terminal n)) = some ('!' :: n) := by
      simp only [format_bool_expr]
      rw [show simplify_via_laws (.Not (.Terminal n)) = .Not (.Terminal n)
          from rfl,
        show fmtInner (.Not (.Terminal n)) = '!' :: n from rfl,
        if_neg (by
          intro hcon
          exact absurd (Option.some.inj hcon) (by decide))]
    have hnot : leadsWith ['n', 'o', 't', ' ']
        (pad2 (fmtInner (.Not (.Terminal n)))) = false := by
      rw [show fmtInner (.Not (.Terminal n)) = '!' :: n from rfl,
        pad2_bang hc]
      exact leadsWith_head_ne (by decide) _
    have hdep : bDepth (.Not (.Terminal n)) ≤ 99 := by
      rw [show bDepth (.Not (.Terminal n)) = 0 from rfl]
      omega
    have hp := parse_fmtInner ht2 hsafe hnot hdep
    rw [hsv] at hp
    exact ⟨'!' :: n, hfmt, hp⟩
  | @const b =>
    cases b
    · have ht2 : Leafy T (.Const false) := .const
      have hfmt : format_bool_expr (.Const false) =
          some ['f', 'a', 'l', 's', 'e'] := by
        simp only [format_bool_expr]
        rw [show simplify_via_laws (.Const false) = .Const false from rfl,
          show fmtInner (.Const false) = ['f', 'a', 'l', 's', 'e'] from rfl,
          if_neg (by
            intro hcon
            exact absurd (Option.some.inj hcon) (by decide))]
      have hp := parse_fmtInner ht2 hsafe (by decide) (by decide)
      rw [hsv] at hp
      exact ⟨['f', 'a', 'l', 's', 'e'], hfmt, hp⟩
    · have ht2 : Leafy T (.Const true) := .const
      have hfmt : format_bool_expr (.Const true) =
          some ['t', 'r', 'u', 'e'] := by
        simp only [format_bool_expr]
        rw [show simplify_via_laws (.Const true) = .Const true from rfl,
          show fmtInner (.Const true) = ['t', 'r', 'u', 'e'] from rfl,
          if_neg (by
            intro hcon
            exact absurd (Option.some.inj hcon) (by decide))]
      have hp := parse_fmtInner ht2 hsafe (by decide) (by decide)
      rw [hsv] at hp
      exact ⟨['t', 'r', 'u', 'e'], hfmt, hp⟩
  | @and a b ha hb =>
    have ht2 : Leafy T (.And a b) := .and ha hb
    have hd2 : bDepth a ≤ 99 ∧ bDepth b ≤ 99 := by
      rw [show bDepth (.And a b) = max (bDepth a) (bDepth b) + 1 from rfl]
        at hdepth
      omega
    have hfmt : format_bool_expr (.And a b) =
        some (fmtInner a ++ [' ', '&', ' '] ++ fmtInner b) := by
      simp only [format_bool_expr]
      rw [hsv,
        show fmtInner (.And a b) =
          '(' :: (fmtInner a ++ [' ', '&', ' '] ++ fmtInner b ++ [')'])
          from rfl]
      have hhd : ('(' :: (fmtInner a ++ [' ', '&', ' '] ++ fmtInner b ++
          [')'])).head? = some '(' := rfl
      have hbl : ¬ byteLen ('(' :: (fmtInner a ++ [' ', '&', ' '] ++
          fmtInner b ++ [')'])) < 2 := by
        rw [byteLen_cons, byteLen_append,
          show utf8Len '(' = 1 from by decide,
          show byteLen [')'] = 1 from by decide]
        omega
      have hlast : ¬ utf8Len (('(' :: (fmtInner a ++ [' ', '&', ' '] ++
          fmtInner b ++ [')'])).getLastD ' ') ≠ 1 := by
        rw [List.getLastD_cons, getLastD_append_single]
        decide
      rw [if_pos hhd, if_neg hbl, if_neg hlast, List.tail_cons,
        List.dropLast_concat]
    have heqF : ['('] ++ (fmtInner a ++ [' ', '&', ' '] ++ fmtInner b) ++
        [')'] = fmtInner (.And a b) := rfl
    have hnot : leadsWith ['n', 'o', 't', ' ']
        (pad2 (fmtInner a ++ [' ', '&', ' '] ++ fmtInner b)) = false := by
      rw [pad2_append, pad2_append,
        show pad2 [' ', '&', ' '] = [' ', '&', ' '] from rfl,
        show pad2 (fmtInner a) ++ [' ', '&', ' '] ++ pad2 (fmtInner b) =
          pad2 (fmtInner a) ++ ' ' :: ('&' :: ' ' :: pad2 (fmtInner b))
          by simp]
      exact pad2_fmt_not_lead ha
        (fun n hn => (hsafe n (by simp [namesOf, hn])).2.2) _
    obtain ⟨hnorm, hbr⟩ := reparse_ready ht2 hsafe
      (fun c hcm => by rw [← heqF]; simp at hcm ⊢; tauto)
      (fun pat h => heqF ▸ occursIn_mid ['('] [')'] h) hnot
    have hsplit : splitSp (pad2 (fmtInner a ++ [' ', '&', ' '] ++
        fmtInner b)) = fmtToks a ++ ['&'] :: fmtToks b := by
      rw [pad2_append, pad2_append,
        show pad2 [' ', '&', ' '] = [' ', '&', ' '] from rfl,
        show pad2 (fmtInner a) ++ [' ', '&', ' '] ++ pad2 (fmtInner b) =
          pad2 (fmtInner a) ++ ' ' :: ('&' :: ' ' :: pad2 (fmtInner b))
          by simp,
        (split_pad_fmt ha).1, splitSp_cons_nospace _ (by decide),
        splitSp_cons_space, (split_pad_fmt hb).2]
      simp [List.modifyHead]
    have htoks : tokensOf (pad2 (fmtInner a ++ [' ', '&', ' '] ++
        fmtInner b)) = fmtToks a ++ ['&'] :: fmtToks b := by
      unfold tokensOf
      rw [hsplit, List.map_append, trim_fmtToks ha, List.map_cons,
        show trim ['&'] = ['&'] from rfl, trim_fmtToks hb]
    have hrun : runTokens (fmtInner a ++ [' ', '&', ' '] ++ fmtInner b) T 100
        (tokensOf (pad2 (fmtInner a ++ [' ', '&', ' '] ++ fmtInner b)))
        TokenStack.default [] = .ok (⟨some (.And a b), none⟩, []) := by
      rw [htoks,
        run_fmtToks _ T 100 ha (['&'] :: fmtToks b) TokenStack.default []
          (by simp; omega),
        push_default]
      simp only []
      rw [run_amp (by decide), push_op_pending]
      simp only []
      rw [show fmtToks b = fmtToks b ++ [] by simp,
        run_fmtToks _ T 100 hb [] ⟨some a, some .And⟩ [] (by simp; omega),
        push_pending_and]
      rfl
    have hp := parse_of_run hnorm hbr hrun
    rw [hsv] at hp
    exact ⟨fmtInner a ++ [' ', '&', ' '] ++ fmtInner b, hfmt, hp⟩
  | @or a b ha hb =>
    have ht2 : Leafy T (.Or a b) := .or ha hb
    have hd2 : bDepth a ≤ 99 ∧ bDepth b ≤ 99 := by
      rw [show bDepth (.Or a b) = max (bDepth a) (bDepth b) + 1 from rfl]
        at hdepth
      omega
    have hfmt : format_bool_expr (.Or a b) =
        some (fmtInner a ++ [' ', '|', ' '] ++ fmtInner b) := by
      simp only [format_bool_expr]
      rw [hsv,
        show fmtInner (.Or a b) =
          '(' :: (fmtInner a ++ [' ', '|', ' '] ++ fmtInner b ++ [')'])
          from rfl]
      have hhd : ('(' :: (fmtInner a ++ [' ', '|', ' '] ++ fmtInner b ++
          [')'])).head? = some '(' := rfl
      have hbl : ¬ byteLen ('(' :: (fmtInner a ++ [' ', '|', ' '] ++
          fmtInner b ++ [')'])) < 2 := by
        rw [byteLen_cons, byteLen_append,
          show utf8Len '(' = 1 from by decide,
          show byteLen [')'] = 1 from by decide]
        omega
      have hlast : ¬ utf8Len (('(' :: (fmtInner a ++ [' ', '|', ' '] ++
          fmtInner b ++ [')'])).getLastD ' ') ≠ 1 := by
        rw [List.getLastD_cons, getLastD_append_single]
        decide
      rw [if_pos hhd, if_neg hbl, if_neg hlast, List.tail_cons,
        List.dropLast_concat]
    have heqF : ['('] ++ (fmtInner a ++ [' ', '|', ' '] ++ fmtInner b) ++
        [')'] = fmtInner (.Or a b) := rfl
    have hnot : leadsWith ['n', 'o', 't', ' ']
        (pad2 (fmtInner a ++ [' ', '|', ' '] ++ fmtInner b)) = false := by
      rw [pad2_append, pad2_append,
        show pad2 [' ', '|', ' '] = [' ', '|', ' '] from rfl,
        show pad2 (fmtInner a) ++ [' ', '|', ' '] ++ pad2 (fmtInner b) =
          pad2 (fmtInner a) ++ ' ' :: ('|' :: ' ' :: pad2 (fmtInner b))
          by simp]
      exact pad2_fmt_not_lead ha
        (fun n hn => (hsafe n (by simp [namesOf, hn])).2.2) _
    obtain ⟨hnorm, hbr⟩ := reparse_ready ht2 hsafe
      (fun c hcm => by rw [← heqF]; simp at hcm ⊢; tauto)
      (fun pat h => heqF ▸ occursIn_mid ['('] [')'] h) hnot
    have hsplit : splitSp (pad2 (fmtInner a ++ [' ', '|', ' '] ++
        fmtInner b)) = fmtToks a ++ ['|'] :: fmtToks b := by
      rw [pad2_append, pad2_append,
        show pad2 [' ', '|', ' '] = [' ', '|', ' '] from rfl,
        show pad2 (fmtInner a) ++ [' ', '|', ' '] ++ pad2 (fmtInner b) =
          pad2 (fmtInner a) ++ ' ' :: ('|' :: ' ' :: pad2 (fmtInner b))
          by simp,
        (split_pad_fmt ha).1, splitSp_cons_nospace _ (by decide),
        splitSp_cons_space, (split_pad_fmt hb).2]
      simp [List.modifyHead]
    have htoks : tokensOf (pad2 (fmtInner a ++ [' ', '|', ' '] ++
        fmtInner b)) = fmtToks a ++ ['|'] :: fmtToks b := by
      unfold tokensOf
      rw [hsplit, List.map_append, trim_fmtToks ha, List.map_cons,
        show trim ['|'] = ['|'] from rfl, trim_fmtToks hb]
    have hrun : runTokens (fmtInner a ++ [' ', '|', ' '] ++ fmtInner b) T 100
        (tokensOf (pad2 (fmtInner a ++ [' ', '|', ' '] ++ fmtInner b)))
        TokenStack.default [] = .ok (⟨some (.Or a b), none⟩, []) := by
      rw [htoks,
        run_fmtToks _ T 100 ha (['|'] :: fmtToks b) TokenStack.default []
          (by simp; omega),
        push_default]
      simp only []
      rw [run_bar (by decide), push_op_pending]
      simp only []
      rw [show fmtToks b = fmtToks b ++ [] by simp,
        run_fmtToks _ T 100 hb [] ⟨some a, some .Or⟩ [] (by simp; omega),
        push_pending_or]
      rfl
    have hp := parse_of_run hnorm hbr hrun
    rw [hsv] at hp
    exact ⟨fmtInner a ++ [' ', '|', ' '] ++ fmtInner b, hfmt, hp⟩

/-- C1 amended: the round trip holds for every successfully parsed tree
whose terminal names do not begin with `and` or `or` and are not exactly
`not`, and whose binary-operator depth stays within the default nesting
bound: formatting succeeds, re-parsing the output succeeds, and formatting
the re-parsed tree is byte-identical to the first output (the re-parse in
fact returns the same tree).  The counterexample shows the conditions are
necessary: `x & (and)` parses but its formatted output `x & and` fails to
re-parse. -/
theorem C1_round_trip (s : Str) (T : List Str) (t : Expr)
    (hparse : parse_bool_expr_str s T = .ok t)
    (hsafe : SafeNames t) (hdepth : bDepth t ≤ 100) :
    ∃ out t2, format_bool_expr t = some out ∧
      parse_bool_expr_str out T = .ok t2 ∧
      format_bool_expr t2 = some out := by
  obtain ⟨ht, hsimp⟩ := parse_ok_shape hparse
  obtain ⟨out, h1, h2⟩ := format_roundtrip ht hsimp hsafe hdepth
  exact ⟨out, t, h1, h2, h1⟩

/-- C1 witness: the round trip evaluated at `x & y` over `{x, y}`. -/
theorem C1_round_trip_witness :
    parse_bool_expr_str ['x', ' ', '&', ' ', 'y'] [['x'], ['y']] =
        .ok (.And (.Terminal ['x']) (.Terminal ['y'])) ∧
      SafeNames (.And (.Terminal ['x']) (.Terminal ['y'])) ∧
      bDepth (.And (.Terminal ['x']) (.Terminal ['y'])) ≤ 100 ∧
      ∃ out t2,
        format_bool_expr (.And (.Terminal ['x']) (.Terminal ['y'])) =
          some out ∧
        parse_bool_expr_str out [['x'], ['y']] = .ok t2 ∧
        format_bool_expr t2 = some out :=
  ⟨by decide, by unfold SafeNames; decide, by decide,
    C1_round_trip ['x', ' ', '&', ' ', 'y'] [['x'], ['y']]
      (.And (.Terminal ['x']) (.Terminal ['y'])) (by decide)
      (by unfold SafeNames; decide) (by decide)⟩

end Boollion
